import Mathlib

/-!
# aws-organizations: the organization tree, its flattening and its tagging

A shallow embedding of package `org` (`org.go`, `aws.go`, `iface.go`).

* Go maps are association lists with distinct keys; the list order stands for the
  order in which one run of `range` visits the entries.
* Go slices of strings are slice headers over a store of backing arrays, so that
  `append` writing into spare capacity is visible through every alias.
* Goroutines and channels of `walkOUTree` are modelled by what each goroutine
  sends and by the capacity of the channel it sends on.
-/

namespace Org

/-! ## Go maps -/

/-- A Go `map[string]V`: entries in the order one iteration visits them. -/
abbrev GoMap (V : Type) := List (String × V)

namespace GoMap
variable {V : Type}

/-- The lookup `v, ok := m[key]`. -/
def get? : GoMap V → String → Option V
  | [], _ => none
  | (k, v) :: rest, key => if k = key then some v else get? rest key

/-- The assignment `m[key] = val`: replaces the entry of `key`, or adds one. -/
def set : GoMap V → String → V → GoMap V
  | [], key, val => [(key, val)]
  | (k, v) :: rest, key, val =>
      if k = key then (k, val) :: rest else (k, v) :: set rest key val

/-- The keys of the map, in iteration order. -/
def keys (m : GoMap V) : List String := m.map Prod.fst

end GoMap

instance instDecidableEqGoMap {V : Type} [DecidableEq V] : DecidableEq (GoMap V) :=
  inferInstanceAs (DecidableEq (List (String × V)))

/-! ## Go slices of strings -/

/-- A slice header: backing array (an index into the store), length, capacity. -/
structure Slice where
  arr : Nat
  len : Nat
  cap : Nat
deriving DecidableEq, Repr

/-- The backing arrays allocated so far; array `i` has as many cells as its capacity. -/
abbrev Store := List (List String)

/-- The `nil` slice (`cap = 0`, so its array index is never used for a write). -/
def Slice.nil : Slice := ⟨0, 0, 0⟩

/-- The elements a slice shows in a given store. -/
def Slice.read (s : Slice) (st : Store) : List String := (st.getD s.arr []).take s.len

/-- Capacity chosen by the Go runtime (`growslice`) when `append` must reallocate:
the new length if it exceeds twice the old capacity, twice the old capacity below
256 elements, and a 1.25x step above. Rounding to an allocation size class is left
out; it is the identity on the capacities 1, 2, 4, ..., 256 of string arrays. -/
def growCap (oldCap newLen : Nat) : Nat :=
  if newLen > 2 * oldCap then newLen
  else if oldCap < 256 then 2 * oldCap
  else oldCap + (oldCap + 768) / 4

/-- The built-in `append(s, x)`: with spare capacity the element is written into the
shared backing array, otherwise a new array is allocated and the elements copied. -/
def goAppend (st : Store) (s : Slice) (x : String) : Store × Slice :=
  if s.len < s.cap then
    (st.set s.arr ((st.getD s.arr []).set s.len x), { s with len := s.len + 1 })
  else
    (st ++ [(s.read st ++ [x]) ++ List.replicate (growCap s.cap (s.len + 1) - (s.len + 1)) ""],
      ⟨st.length, s.len + 1, growCap s.cap (s.len + 1)⟩)

/-! ## Data model (`org.go`) -/

/-- The struct `Account`. -/
structure Account where
  ID : String
  Name : String
  Email : String
  Active : Bool
  Tags : GoMap String
deriving DecidableEq, Repr

/-- The struct `AccountInfo`; the two paths are slice headers. -/
structure AccountInfo where
  ID : String
  Name : String
  Email : String
  Active : Bool
  OUNamePath : Slice
  OUIdPath : Slice
  Org : String
  Tags : GoMap String
deriving DecidableEq, Repr

/-- The struct `OrgUnitInfo`; `ParentPath` is a slice header. -/
structure OrgUnitInfo where
  Name : String
  ID : String
  ParentPath : Slice
  Tags : GoMap String
deriving DecidableEq, Repr

/-- The struct `OrgUnit`. -/
inductive OrgUnit where
  | mk (Name : String) (ID : String) (Tags : List (String × String))
       (OrgUnits : List (String × OrgUnit)) (Accounts : List (String × Account))
deriving Repr

namespace OrgUnit

/-- Field `Name`. -/
def Name : OrgUnit → String
  | mk n _ _ _ _ => n

/-- Field `ID`. -/
def ID : OrgUnit → String
  | mk _ i _ _ _ => i

/-- Field `Tags`. -/
def Tags : OrgUnit → GoMap String
  | mk _ _ t _ _ => t

/-- Field `OrgUnits`. -/
def OrgUnits : OrgUnit → GoMap OrgUnit
  | mk _ _ _ o _ => o

/-- Field `Accounts`. -/
def Accounts : OrgUnit → GoMap Account
  | mk _ _ _ _ a => a

end OrgUnit

/-- The struct `OrgTree`. -/
structure OrgTree where
  ID : String
  ManagementAccount : Account
  Tags : GoMap String
  OrgUnits : GoMap OrgUnit

/-- The zero value of `Account`. -/
def Account.zero : Account := ⟨"", "", "", false, []⟩

/-! ## Flattening (`org.go`) -/

mutual
/-- One iteration of the loop of `walkOUs`, for the entry `ou`. -/
def walkOU : OrgUnit → Store → Slice → Store × List OrgUnitInfo
  | .mk name id _ ous _, st, parentPath =>
      -- childPath := parentPath[:]; childPath = append(childPath, ou.Name)
      let childPath := goAppend st parentPath name
      let sub := walkOUs ous childPath.1 childPath.2
      (sub.1, ⟨name, id, parentPath, []⟩ :: sub.2)
/-- The function `walkOUs`: the descriptors of `orgUnits` and of everything below. -/
def walkOUs : List (String × OrgUnit) → Store → Slice → Store × List OrgUnitInfo
  | [], st, _ => (st, [])
  | (_, ou) :: rest, st, parentPath =>
      let here := walkOU ou st parentPath
      let more := walkOUs rest here.1 parentPath
      (more.1, here.2 ++ more.2)
end

/-- The method `(*OrgTree).OrgUnitsInfo`: `walkOUs(t.OrgUnits, nil)`. -/
def OrgTree.OrgUnitsInfo (t : OrgTree) : Store × List OrgUnitInfo :=
  walkOUs t.OrgUnits [] Slice.nil

/-- What a caller reads from the result of `OrgUnitsInfo`: name, ID and the
elements of `ParentPath`, per descriptor. -/
def OrgTree.OrgUnitsView (t : OrgTree) : List (String × String × List String) :=
  t.OrgUnitsInfo.2.map fun u => (u.Name, u.ID, u.ParentPath.read t.OrgUnitsInfo.1)

/-- The composite literal `AccountInfo{Name: .., ID: .., Active: .., Email: .., Tags: ..,
OUNamePath: path}` of `walkAccounts`. -/
def mkAccountInfo (name id email : String) (active : Bool) (tags : GoMap String)
    (path : Slice) : AccountInfo :=
  ⟨id, name, email, active, path, Slice.nil, "", tags⟩

mutual
/-- One iteration of the outer loop of `walkAccounts`, for the entry `ou`. The entries
of the map returned from below are visited in the order in which they were inserted;
their keys are distinct, so these writes do not depend on that order. -/
def walkAccountsOU : OrgUnit → Store → GoMap AccountInfo → Slice → Store × GoMap AccountInfo
  | .mk name _ _ ous accts, st, accounts, parentPath =>
      let accounts1 := accts.foldl (fun m e =>
        m.set e.2.Name (mkAccountInfo e.2.Name e.2.ID e.2.Email e.2.Active e.2.Tags parentPath))
        accounts
      let childPath := goAppend st parentPath name
      let sub := walkAccountsLoop ous childPath.1 [] childPath.2
      (sub.1, sub.2.foldl (fun m e =>
        m.set e.2.Name (mkAccountInfo e.2.Name e.2.ID e.2.Email e.2.Active e.2.Tags childPath.2))
        accounts1)
/-- The outer loop of `walkAccounts` over the remaining entries, `accounts` being
the map built so far. -/
def walkAccountsLoop : List (String × OrgUnit) → Store → GoMap AccountInfo → Slice →
    Store × GoMap AccountInfo
  | [], st, accounts, _ => (st, accounts)
  | (_, ou) :: rest, st, accounts, parentPath =>
      let here := walkAccountsOU ou st accounts parentPath
      walkAccountsLoop rest here.1 here.2 parentPath
end

/-- The function `walkAccounts`: starts from an empty map. -/
def walkAccounts (orgUnits : GoMap OrgUnit) (st : Store) (parentPath : Slice) :
    Store × GoMap AccountInfo :=
  walkAccountsLoop orgUnits st [] parentPath

/-- The method `(*OrgTree).Accounts`: `walkAccounts(t.OrgUnits, nil)`. -/
def OrgTree.Accounts (t : OrgTree) : Store × GoMap AccountInfo :=
  walkAccounts t.OrgUnits [] Slice.nil

/-- What a caller reads in a descriptor: ID, email, active flag, tags and the elements
of `OUNamePath`. -/
def AccountInfo.view (st : Store) (i : AccountInfo) :
    String × String × Bool × GoMap String × List String :=
  (i.ID, i.Email, i.Active, i.Tags, i.OUNamePath.read st)

/-- What a caller reads under `name` in the result of `Accounts`. -/
def OrgTree.AccountsView (t : OrgTree) (name : String) :
    Option (String × String × Bool × GoMap String × List String) :=
  (t.Accounts.2.get? name).map (AccountInfo.view t.Accounts.1)

/-! ## Remote services (`iface.go` and the SDK types it mentions) -/

/-- A Go `error` value that is not `nil`. -/
structure GoError where
  msg : String
deriving DecidableEq, Repr

/-- The function `aws.ToString`: the string pointed to, `""` for a `nil` pointer. -/
def awsToString : Option String → String
  | some s => s
  | none => ""

namespace types

/-- The SDK struct `types.Root` (fields used by the package). -/
structure Root where
  Id : Option String
  Name : Option String
deriving DecidableEq, Repr

/-- The SDK struct `types.Child`. -/
structure Child where
  Id : Option String
deriving DecidableEq, Repr

/-- The SDK struct `types.OrganizationalUnit`. -/
structure OrganizationalUnit where
  Id : Option String
  Name : Option String
deriving DecidableEq, Repr

/-- The SDK enumeration `types.AccountStatus`. -/
inductive AccountStatus where
  | ACTIVE
  | SUSPENDED
  | PENDING_CLOSURE
deriving DecidableEq, Repr

/-- The SDK struct `types.Account`. -/
structure Account where
  Id : Option String
  Name : Option String
  Email : Option String
  Status : AccountStatus
deriving DecidableEq, Repr

/-- The SDK struct `types.Organization`. -/
structure Organization where
  Id : Option String
  MasterAccountId : Option String
deriving DecidableEq, Repr

/-- The SDK struct `types.Tag` of the tagging service. -/
structure Tag where
  Key : Option String
  Value : Option String
deriving DecidableEq, Repr

/-- The SDK struct `types.ResourceTagMapping`. -/
structure ResourceTagMapping where
  ResourceARN : Option String
  Tags : List Tag
deriving DecidableEq, Repr

end types

/-- What a remote call returns: the response, or an error (and then a `nil`
response, as the SDK clients and paginators do). -/
abbrev Call (α : Type) := Except GoError α

/-- A paginated operation: what the successive calls of `NextPage` return, until
`HasMorePages` is false. -/
abbrev Pages (α : Type) := List (Call (List α))

/-- The interface `Organizations` (`DescribeAccount` is never called). The answers
do not change during one run. -/
structure Organizations where
  ListRoots : Pages types.Root
  ListChildren : Option String → Pages types.Child
  DescribeOrganization : Call types.Organization
  DescribeOrganizationalUnit : Option String → Call types.OrganizationalUnit
  ListAccountsForParent : Option String → Pages types.Account

/-- The interface `ResourceGroupsTagging`, asked for `organizations:account`. -/
structure ResourceGroupsTagging where
  GetResources : Pages types.ResourceTagMapping

/-- The struct `AWSOrgTreeProvider` (its lock is never taken). -/
structure AWSOrgTreeProvider where
  org : Organizations
  tag : ResourceGroupsTagging

/-- The loop `for p.HasMorePages() { resp, err := p.NextPage(ctx); if err != nil
{ return .., err }; xs = append(xs, resp.Items...) }` of the calling goroutine. -/
def paginate {α : Type} : Pages α → Call (List α)
  | [] => .ok []
  | .error err :: _ => .error err
  | .ok page :: rest =>
      match paginate rest with
      | .error err => .error err
      | .ok items => .ok (page ++ items)

/-! ## Outcomes of a call in a concurrent program -/

/-- How a call ends. -/
inductive Outcome (α : Type) where
  /-- The call returns `a`. -/
  | returned (a : α)
  /-- The call returns the error `err`; the goroutine it received `err` from goes
  on, dereferences a `nil` response and panics. -/
  | errorThenPanic (err : GoError)
  /-- The call never returns: it waits for a goroutine blocked forever. -/
  | deadlock
  /-- A goroutine panics before the call returns: the process terminates. -/
  | panic
  /-- The bound on the recursion depth of the model was reached. -/
  | outOfFuel
deriving DecidableEq, Repr

/-- The order in which the child goroutines of one `walkOUTree` call complete; their
assignments to `orgUnits` and their sends on `channel2` are taken in this order. -/
structure Schedule where
  order : Option String → List types.Child → List types.Child
  perm : ∀ parentID children, (order parentID children).Perm children

/-- The schedule in which the child goroutines complete in the order of `children`. -/
def Schedule.fifo : Schedule := ⟨fun _ children => children, fun _ _ => List.Perm.refl _⟩

/-! ## Tags (`aws.go`) -/

/-- Go's `strings.Split(s, sep)` for a one-character separator, on the characters. -/
def splitChars (sep : Char) : List Char → List (List Char)
  | [] => [[]]
  | c :: cs =>
      if c = sep then [] :: splitChars sep cs
      else
        match splitChars sep cs with
        | [] => [[c]]
        | seg :: segs => (c :: seg) :: segs

/-- Go's `strings.Split(s, "/")`. -/
def stringsSplit (s : String) (sep : Char) : List String :=
  (splitChars sep s.data).map String.mk

/-- The inner loop `for _, tag := range resource.Tags` into a fresh map. -/
def accountTagsOf (tags : List types.Tag) : GoMap String :=
  tags.foldl (fun m tag => m.set (awsToString tag.Key) (awsToString tag.Value)) []

/-- The loop over `resp.ResourceTagMappingList`; `none` is the run-time panic of an
index out of range in `splitArn[len(splitArn)-1]`. -/
def tagResources : List types.ResourceTagMapping → GoMap (GoMap String) →
    Option (GoMap (GoMap String))
  | [], accountsTags => some accountsTags
  | resource :: rest, accountsTags =>
      let splitArn := stringsSplit (awsToString resource.ResourceARN) '/'
      if splitArn.length = 0 then none
      else
        match splitArn.get? (splitArn.length - 1) with
        | none => none
        | some accountId => tagResources rest (accountsTags.set accountId (accountTagsOf resource.Tags))

/-- The loop `for paginator.HasMorePages()` of `getTagsForAccounts`. -/
def tagPages : Pages types.ResourceTagMapping → GoMap (GoMap String) →
    Outcome (Call (GoMap (GoMap String)))
  | [], accountsTags => .returned (.ok accountsTags)
  | .error err :: _, _ => .returned (.error err)
  | .ok page :: rest, accountsTags =>
      match tagResources page accountsTags with
      | none => .panic
      | some accountsTags1 => tagPages rest accountsTags1

/-- The method `getTagsForAccounts`. -/
def AWSOrgTreeProvider.getTagsForAccounts (r : AWSOrgTreeProvider) :
    Outcome (Call (GoMap (GoMap String))) :=
  tagPages r.tag.GetResources []

/-- The inner loop of `addTagsAccounts` over one `Accounts` map: `remaining` are the
entries still to visit, `accounts` is the map object, written through
`orgUnits[k1].Accounts[k2] = account`. -/
def tagAccounts (tags : GoMap (GoMap String)) :
    List (String × Account) → GoMap Account → GoMap Account
  | [], accounts => accounts
  | (k2, account) :: remaining, accounts =>
      match tags.get? account.ID with
      | some val => tagAccounts tags remaining (accounts.set k2 { account with Tags := val })
      | none => tagAccounts tags remaining accounts

mutual
/-- One iteration of the outer loop of `addTagsAccounts`: the `Accounts` map of the
unit is written to, and the recursive call writes to the maps below it. -/
def addTagsOrgUnit (tags : GoMap (GoMap String)) : OrgUnit → OrgUnit
  | .mk name id t ous accts =>
      .mk name id t (addTagsAccounts tags ous) (tagAccounts tags accts accts)
/-- The function `addTagsAccounts`. The map `orgUnits` itself is never assigned to:
all writes go to `Accounts` maps, which the units hold by reference. -/
def addTagsAccounts (tags : GoMap (GoMap String)) : List (String × OrgUnit) → List (String × OrgUnit)
  | [] => []
  | (k1, ou) :: rest => (k1, addTagsOrgUnit tags ou) :: addTagsAccounts tags rest
end

/-! ## Building the tree (`aws.go`) -/

/-- The struct `OrgAccount`, sent on `channel`. -/
structure OrgAccount where
  err : Option GoError
  accounts : GoMap Account
  managementAccount : Option Account

/-- The struct `OrgUnitAccountResponse`, sent on `channel2`. -/
structure OrgUnitAccountResponse where
  err : Option GoError
  accounts : GoMap Account
  orgUnit : GoMap OrgUnit
  management : Option Account

/-- What `walkOUTree` returns with a `nil` error: `orgUnits`, `allAccount` and the
management account (`none` for the `nil` pointer). -/
abbrev WalkResult := GoMap OrgUnit × GoMap Account × Option Account

/-- The loop `for _, account := range accountsList` of the accounts goroutine. -/
def listAccounts (managementAccountID : String) :
    List types.Account → GoMap Account → Option Account → GoMap Account × Option Account
  | [], accounts, managementAccount => (accounts, managementAccount)
  | account :: rest, accounts, managementAccount =>
      let account1 : Account :=
        { Name := awsToString account.Name
          ID := awsToString account.Id
          Email := awsToString account.Email
          Active := decide (account.Status = types.AccountStatus.ACTIVE)
          Tags := [] }
      listAccounts managementAccountID rest (accounts.set account1.Name account1)
        (if account1.ID = managementAccountID then some account1 else managementAccount)

/-- The first value the accounts goroutine of `walkOUTree` sends on `channel`: the
error of the first page that fails, else the accounts of all pages. After an error
is received the goroutine runs on to `resp.Accounts` with a `nil` `resp`. -/
def accountsGoroutine (a : AWSOrgTreeProvider) (parentID : Option String)
    (managementAccountID : String) : OrgAccount :=
  match paginate (a.org.ListAccountsForParent parentID) with
  | .error err => ⟨some err, [], none⟩
  | .ok accountsList =>
      ⟨none, (listAccounts managementAccountID accountsList [] none).1,
        (listAccounts managementAccountID accountsList [] none).2⟩

/-- How a child goroutine ends once the values it sends have found room. -/
inductive Fate where
  /-- It runs to the end and calls `wg.Done`. -/
  | done
  /-- It waits for a nested `walkOUTree` that never returns. -/
  | blocked
  /-- It panics, or a goroutine below it does. -/
  | panics
  /-- The nested call reached the bound of the model. -/
  | outOfFuel
deriving DecidableEq, Repr

/-- One child goroutine of `walkOUTree`: the values it sends on `channel2`, in order,
its assignment to `orgUnits`, and how it ends. -/
structure ChildRun where
  sends : List OrgUnitAccountResponse
  write : Option (String × OrgUnit)
  fate : Fate

/-- The value `OrgUnitAccountResponse{err: err, management: nil, accounts: nil,
orgUnit: nil}`. -/
def errorResponse (err : GoError) : OrgUnitAccountResponse := ⟨some err, [], [], none⟩

/-- The body of the goroutine started for `child`. Neither error branch returns:
after a failed `DescribeOrganizationalUnit` the goroutine sends the error and then
reads `resp.OrganizationalUnit` of a `nil` `resp`; after a failed nested
`walkOUTree` it sends the error, stores the unit with `nil` maps and sends
again. -/
def childGoroutine (walk : Option String → List String → Outcome (Call WalkResult))
    (a : AWSOrgTreeProvider) (child : types.Child) (OU : List String) : ChildRun :=
  match a.org.DescribeOrganizationalUnit child.Id with
  | .error err => ⟨[errorResponse err], none, .panics⟩
  | .ok resp =>
      match walk child.Id (OU ++ [awsToString resp.Name]) with
      | .returned (.ok (childOrgUnits, childAccounts, childManagementAccount)) =>
          ⟨[⟨none, childAccounts, childOrgUnits, childManagementAccount⟩],
            some (awsToString resp.Name,
              .mk (awsToString resp.Name) (awsToString resp.Id) [] childOrgUnits childAccounts),
            .done⟩
      | .returned (.error err) =>
          ⟨[errorResponse err, ⟨some err, [], [], none⟩],
            some (awsToString resp.Name,
              .mk (awsToString resp.Name) (awsToString resp.Id) [] [] []),
            .done⟩
      | .errorThenPanic _ => ⟨[], none, .panics⟩
      | .panic => ⟨[], none, .panics⟩
      | .deadlock => ⟨[], none, .blocked⟩
      | .outOfFuel => ⟨[], none, .outOfFuel⟩

/-- The assignments `orgUnits[name] = OrgUnit{..}` of the child goroutines to the map
they share, taken one after the other in the order in which the goroutines
complete. -/
def childWrites : List ChildRun → GoMap OrgUnit → GoMap OrgUnit
  | [], orgUnits => orgUnits
  | run :: rest, orgUnits =>
      match run.write with
      | some (name, ou) => childWrites rest (orgUnits.set name ou)
      | none => childWrites rest orgUnits

/-- The call `wg.Wait()` after the fan-out: `channel2` has `capacity` slots and is
not read before every child goroutine is done. Each goroutine finds room for its
first value (there are as many slots as goroutines); a second value finds none, so
a goroutine that sends twice never calls `wg.Done`. On return the map `orgUnits`
and the values held by the channel are known. -/
def waitChildren (capacity : Nat) (runs : List ChildRun) :
    Outcome (GoMap OrgUnit × List OrgUnitAccountResponse) :=
  if runs.any (fun run => run.fate = .outOfFuel) then .outOfFuel
  else if runs.any (fun run => run.fate = .panics) then .panic
  else if runs.any (fun run => run.fate = .blocked) then .deadlock
  else if capacity < (runs.map (fun run => run.sends.length)).sum then .deadlock
  else .returned (childWrites runs [], (runs.map (fun run => run.sends)).flatten)

/-- The local variables `allAccount`, `allOrgUnits`, `managementAccount`. -/
structure Gathered where
  allAccount : GoMap Account
  allOrgUnits : GoMap OrgUnit
  managementAccount : Option Account

/-- The loop `for k, v := range m { all[k] = v }`. -/
def mergeInto {V : Type} : List (String × V) → GoMap V → GoMap V
  | [], all => all
  | (k, v) :: rest, all => mergeInto rest (all.set k v)

/-- The loop `for i := 0; i < len(children); i++ { r := <-channel2 .. }`. -/
def gather : List OrgUnitAccountResponse → Gathered → Call Gathered
  | [], g => .ok g
  | r :: rest, g =>
      match r.err with
      | some err => .error err
      | none =>
          gather rest
            { allAccount := mergeInto r.accounts g.allAccount
              allOrgUnits := mergeInto r.orgUnit g.allOrgUnits
              managementAccount :=
                match r.management with
                | some m => some m
                | none => g.managementAccount }

/-- The method `walkOUTree`; the first argument bounds the depth of the recursion.
The path `OU` is only ever appended to. -/
def walkOUTree (a : AWSOrgTreeProvider) (s : Schedule) :
    Nat → Option String → String → String → List String → Outcome (Call WalkResult)
  | 0, _, _, _, _ => .outOfFuel
  | fuel + 1, parentID, orgId, managementAccountID, OU =>
      match paginate (a.org.ListChildren parentID) with
      | .error err => .returned (.error err)
      | .ok children =>
          match waitChildren children.length
              ((s.order parentID children).map fun child =>
                childGoroutine
                  (fun id childOU => walkOUTree a s fuel id orgId managementAccountID childOU)
                  a child OU) with
          | .outOfFuel => .outOfFuel
          | .panic => .panic
          | .deadlock => .deadlock
          | .errorThenPanic err => .errorThenPanic err
          | .returned (orgUnits, received) =>
              match gather (received.take children.length) ⟨[], [], none⟩ with
              | .error err => .returned (.error err)
              | .ok g =>
                  -- result := <-channel
                  match (accountsGoroutine a parentID managementAccountID).err with
                  | some err => .errorThenPanic err
                  | none =>
                      .returned (.ok (orgUnits,
                        mergeInto (accountsGoroutine a parentID managementAccountID).accounts
                          g.allAccount,
                        match (accountsGoroutine a parentID
                            managementAccountID).managementAccount with
                        | some m => some m
                        | none => g.managementAccount))

/-- The loop `for _, root := range roots` of `getOrgTree`. -/
def rootsLoop (a : AWSOrgTreeProvider) (s : Schedule) (fuel : Nat)
    (orgId managementAccountID : String) : List types.Root → OrgTree → Outcome (Call OrgTree)
  | [], tree => .returned (.ok tree)
  | root :: rest, tree =>
      match walkOUTree a s fuel root.Id orgId managementAccountID [awsToString root.Name] with
      | .outOfFuel => .outOfFuel
      | .panic => .panic
      | .deadlock => .deadlock
      | .errorThenPanic err => .errorThenPanic err
      | .returned (.error err) => .returned (.error err)
      | .returned (.ok (orgUnits, accounts, managementAccount)) =>
          rootsLoop a s fuel orgId managementAccountID rest
            { tree with
              ManagementAccount :=
                match managementAccount with
                | some m => m
                | none => tree.ManagementAccount
              OrgUnits := tree.OrgUnits.set (awsToString root.Name)
                (.mk (awsToString root.Name) (awsToString root.Id) [] orgUnits accounts) }

/-- The method `getOrgTree`: the roots are listed first, then the value of the
`DescribeOrganization` goroutine is received. -/
def AWSOrgTreeProvider.getOrgTree (a : AWSOrgTreeProvider) (s : Schedule) (fuel : Nat) :
    Outcome (Call OrgTree) :=
  match paginate a.org.ListRoots with
  | .error err => .returned (.error err)
  | .ok roots =>
      match a.org.DescribeOrganization with
      | .error err => .returned (.error err)
      | .ok organization =>
          rootsLoop a s fuel (awsToString organization.Id)
            (awsToString organization.MasterAccountId) roots
            { ID := awsToString organization.Id
              ManagementAccount := Account.zero
              Tags := []
              OrgUnits := [] }

/-- The method `OrgTree`: the tags goroutine runs beside `getOrgTree`; its first
value is received once the tree is built. -/
def AWSOrgTreeProvider.OrgTree (a : AWSOrgTreeProvider) (s : Schedule) (fuel : Nat) :
    Outcome (Call OrgTree) :=
  match a.getTagsForAccounts with
  | .outOfFuel => .outOfFuel
  | .panic => .panic
  | .deadlock => .deadlock
  | .errorThenPanic err => .errorThenPanic err
  | .returned result =>
      match a.getOrgTree s fuel with
      | .returned (.ok tree) =>
          match result with
          | .error err => .returned (.error err)
          | .ok tags => .returned (.ok { tree with OrgUnits := addTagsAccounts tags tree.OrgUnits })
      | other => other

/-! ## The paths the flattening is specified to produce -/

mutual
/-- Specification of `walkOUs`, one unit: every descriptor carries the names of its
ancestors as a value of its own. -/
def ancestorsOU : OrgUnit → List String → List (String × String × List String)
  | .mk name id _ ous _, ancestors =>
      (name, id, ancestors) :: ancestorsOUs ous (ancestors ++ [name])
/-- Specification of `walkOUs`: one descriptor per unit at every depth, with the
names of the unit's ancestors from the root-level unit down to its parent. -/
def ancestorsOUs : List (String × OrgUnit) → List String → List (String × String × List String)
  | [], _ => []
  | (_, ou) :: rest, ancestors => ancestorsOU ou ancestors ++ ancestorsOUs rest ancestors
end

mutual
/-- The full name paths of the units below and including `ou` whose `Accounts` map
holds an account called `name`. -/
def holderPathsOU : OrgUnit → String → List String → List (List String)
  | .mk ouName _ _ ous accts, name, ancestors =>
      (if accts.any (fun e => e.2.Name = name) then [ancestors ++ [ouName]] else []) ++
        holderPaths ous name (ancestors ++ [ouName])
/-- The full name paths of the units of the map, at any depth, whose `Accounts` map
holds an account called `name`: the names from the root-level unit down to the
holding unit. -/
def holderPaths : List (String × OrgUnit) → String → List String → List (List String)
  | [], _, _ => []
  | (_, ou) :: rest, name, ancestors =>
      holderPathsOU ou name ancestors ++ holderPaths rest name ancestors
end

/-! ## Example organizations -/

/-- A unit without tags whose ID is derived from its name. -/
def unit (name : String) (orgUnits : GoMap OrgUnit) (accounts : GoMap Account) : OrgUnit :=
  .mk name ("ou-" ++ name) [] orgUnits accounts

/-- An active account without tags whose ID and email are derived from its name. -/
def account (name : String) : Account := ⟨"id-" ++ name, name, name ++ "@example.com", true, []⟩

/-- Three nested units, each holding one account of its own: `top` under `Root`,
`mid` under `Root/Infra`, `deep` under `Root/Infra/Sub`. -/
def nestedTree : OrgTree :=
  { ID := "o-1"
    ManagementAccount := Account.zero
    Tags := []
    OrgUnits :=
      [("Root", unit "Root"
        [("Infra", unit "Infra"
          [("Sub", unit "Sub" [] [("deep", account "deep")])]
          [("mid", account "mid")])]
        [("top", account "top")])] }

/-- Five levels; the unit `L3` at the third level has two children `A` and `B` at the
fourth level, and each of them has a child of its own. -/
def fiveLevelTree : OrgTree :=
  { ID := "o-1"
    ManagementAccount := Account.zero
    Tags := []
    OrgUnits :=
      [("Root", unit "Root"
        [("L2", unit "L2"
          [("L3", unit "L3"
            [("A", unit "A" [("A1", unit "A1" [] [])] []),
             ("B", unit "B" [("B1", unit "B1" [] [])] [])]
            [])]
          [])]
        [])] }

/-- A directory four levels deep, `Root > A > B > C`, with siblings `S` of `A` and `T`
of `B`; every call succeeds except `ListChildren` for the unit `B` of the third
level. -/
def failingDirectory : Organizations where
  ListRoots := [.ok [⟨some "r-root", some "Root"⟩]]
  ListChildren := fun parentID =>
    if parentID = some "r-root" then [.ok [⟨some "ou-a"⟩, ⟨some "ou-s"⟩]]
    else if parentID = some "ou-a" then [.ok [⟨some "ou-b"⟩, ⟨some "ou-t"⟩]]
    else if parentID = some "ou-b" then [.error ⟨"ListChildren: throttled"⟩]
    else [.ok []]
  DescribeOrganization := .ok ⟨some "o-1", some "111111111111"⟩
  DescribeOrganizationalUnit := fun id => .ok ⟨id, id⟩
  ListAccountsForParent := fun parentID =>
    if parentID = some "ou-s" then [.ok [⟨some "111111111111", some "mgmt", none, .ACTIVE⟩]]
    else [.ok []]

/-- A provider over `failingDirectory` whose tag service answers with one empty page. -/
def failingProvider : AWSOrgTreeProvider := ⟨failingDirectory, ⟨[.ok []]⟩⟩

/-- The directory of the worked example: organization `o-1` with management account
`111111111111`, one root `Root` whose only child unit is `Infra`, which holds the
single account `mgmt`. -/
def exampleDirectory : Organizations where
  ListRoots := [.ok [⟨some "r-root", some "Root"⟩]]
  ListChildren := fun parentID =>
    if parentID = some "r-root" then [.ok [⟨some "ou-infra"⟩]] else [.ok []]
  DescribeOrganization := .ok ⟨some "o-1", some "111111111111"⟩
  DescribeOrganizationalUnit := fun id =>
    if id = some "ou-infra" then .ok ⟨some "ou-infra", some "Infra"⟩
    else .error ⟨"OrganizationalUnitNotFoundException"⟩
  ListAccountsForParent := fun parentID =>
    if parentID = some "ou-infra" then
      [.ok [⟨some "111111111111", some "mgmt", some "mgmt@example.com", .ACTIVE⟩]]
    else [.ok []]

/-- The provider of the worked example: the tag service lists the account `mgmt`
with the tag `env = prod`. -/
def exampleProvider : AWSOrgTreeProvider :=
  ⟨exampleDirectory,
    ⟨[.ok [⟨some "arn:aws:organizations::111111111111:account/o-1/111111111111",
      [⟨some "env", some "prod"⟩]⟩]]⟩⟩

/-- The account `mgmt` of the worked example, with the given tags. -/
def exampleAccount (tags : GoMap String) : Account :=
  ⟨"111111111111", "mgmt", "mgmt@example.com", true, tags⟩

/-- The tree `OrgTree` returns in the worked example. -/
def exampleTree : OrgTree :=
  { ID := "o-1"
    ManagementAccount := exampleAccount []
    Tags := []
    OrgUnits :=
      [("Root", .mk "Root" "r-root" []
        [("Infra", .mk "Infra" "ou-infra" [] []
          [("mgmt", exampleAccount [("env", "prod")])])]
        [("mgmt", exampleAccount [("env", "prod")])])] }

/-! ## What tagging is specified to do -/

/-- Specification of the tagging of one account. -/
def withTags (tags : GoMap (GoMap String)) (account : Account) : Account :=
  match tags.get? account.ID with
  | some val => { account with Tags := val }
  | none => account

mutual
/-- The accounts of a unit and of the units below it, in iteration order. -/
def allAccountsOU : OrgUnit → List Account
  | .mk _ _ _ ous accts => accts.map Prod.snd ++ allAccounts ous
/-- The accounts held anywhere in the map of units, in iteration order. -/
def allAccounts : List (String × OrgUnit) → List Account
  | [] => []
  | (_, ou) :: rest => allAccountsOU ou ++ allAccounts rest
end

mutual
/-- The unit with the tags of every account below it forgotten. -/
def eraseTagsOU : OrgUnit → OrgUnit
  | .mk name id t ous accts =>
      .mk name id t (eraseTags ous) (accts.map fun e => (e.1, { e.2 with Tags := [] }))
/-- The map of units with the tags of every account forgotten: what is left is every
key, unit and account with its name, ID, email and active flag. -/
def eraseTags : List (String × OrgUnit) → List (String × OrgUnit)
  | [] => []
  | (k, ou) :: rest => (k, eraseTagsOU ou) :: eraseTags rest
end

mutual
/-- The keys of the `Accounts` maps of the unit and below are distinct. -/
def accountKeysDistinctOU : OrgUnit → Prop
  | .mk _ _ _ ous accts => (GoMap.keys accts).Nodup ∧ accountKeysDistinct ous
/-- Every `Accounts` map in the map of units has distinct keys, as a Go map has. -/
def accountKeysDistinct : List (String × OrgUnit) → Prop
  | [] => True
  | (_, ou) :: rest => accountKeysDistinctOU ou ∧ accountKeysDistinct rest
end

mutual
/-- A function applied to every account of a unit and below. -/
def mapAccountsOU (f : Account → Account) : OrgUnit → OrgUnit
  | .mk name id t ous accts =>
      .mk name id t (mapAccounts f ous) (accts.map fun e => (e.1, f e.2))
/-- A function applied to every account of the map of units, at every depth. -/
def mapAccounts (f : Account → Account) : List (String × OrgUnit) → List (String × OrgUnit)
  | [] => []
  | (k, ou) :: rest => (k, mapAccountsOU f ou) :: mapAccounts f rest
end

/-! ## What the tag fetch is specified to produce -/

/-- The trailing path segment of a resource ARN: the text after the last `/`, the
whole ARN when it has none. -/
def trailingSegment (arn : String) : String :=
  String.mk (arn.data.reverse.takeWhile fun c => decide (c ≠ '/')).reverse

/-! ## Predicates used by the theorems -/

/-- The `nil` pointer, or an account without tags. -/
def Untagged (o : Option Account) : Prop := ∀ m, o = some m → m.Tags = []

/-- What a walk that appends to the path `p` leaves untouched in the store: every
array allocated before stays, and keeps its cells, except that the cells of the
array of `p` beyond the length of `p` may be overwritten when `p` has spare
capacity. -/
def Frame (st st' : Store) (p : Slice) : Prop :=
  st.length ≤ st'.length ∧
  ∀ i, i < st.length → ∀ n, (i ≠ p.arr ∨ n ≤ p.len ∨ p.cap ≤ p.len) →
    (st'.getD i []).take n = (st.getD i []).take n

/-- The map is keyed by the name of its accounts, with distinct keys. -/
def KeyedByName (m : GoMap AccountInfo) : Prop :=
  (GoMap.keys m).Nodup ∧ ∀ e ∈ m, e.1 = e.2.Name

/-- The descriptor with its name path forgotten. -/
def AccountInfo.erasePath (i : AccountInfo) : AccountInfo := { i with OUNamePath := Slice.nil }

/-- The descriptor `walkAccounts` makes of an account, for a given path. -/
def infoOf (acc : Account) (path : Slice) : AccountInfo :=
  mkAccountInfo acc.Name acc.ID acc.Email acc.Active acc.Tags path

/-! ## What the units of a built tree hold -/

/-- The `Account` the accounts goroutine makes of a listed account. -/
def toAccount (x : types.Account) : Account :=
  { Name := awsToString x.Name
    ID := awsToString x.Id
    Email := awsToString x.Email
    Active := decide (x.Status = types.AccountStatus.ACTIVE)
    Tags := [] }

/-- The listed accounts keyed by name; for a name listed twice the later one. -/
def keyByName (listed : List types.Account) : GoMap Account :=
  listed.foldl (fun m x => m.set (awsToString x.Name) (toAccount x)) []

/-- The map `accounts` holds, under its name, every account that
`ListAccountsForParent` lists directly under the parent `parentID`: for each listed
name the account listed last with that name. -/
def HoldsListed (a : AWSOrgTreeProvider) (parentID : Option String)
    (accounts : GoMap Account) : Prop :=
  ∃ listed, paginate (a.org.ListAccountsForParent parentID) = .ok listed ∧
    ∀ x ∈ listed, accounts.get? (awsToString x.Name) =
      (keyByName listed).get? (awsToString x.Name)

mutual
/-- The unit, whose accounts and children the directory lists under `id`, holds the
accounts listed directly under `id` and an entry for every account name held by one
of its child units, and so does every unit below it. -/
def RolledUpOU (a : AWSOrgTreeProvider) : OrgUnit → Option String → Prop
  | .mk _ _ _ ous accts, id =>
      HoldsListed a id accts ∧
      (∀ e ∈ ous, ∀ k ∈ GoMap.keys e.2.Accounts, k ∈ GoMap.keys accts) ∧
      RolledUpUnits a ous id
/-- Every unit of the map is a child that `ListChildren` lists under `id`, stored under
the name and with the name and ID that `DescribeOrganizationalUnit` gives for the
child, and holds what `RolledUpOU` says for the ID of that child. -/
def RolledUpUnits (a : AWSOrgTreeProvider) : List (String × OrgUnit) → Option String → Prop
  | [], _ => True
  | (k, ou) :: rest, id =>
      (∃ children child resp,
        paginate (a.org.ListChildren id) = .ok children ∧ child ∈ children ∧
        a.org.DescribeOrganizationalUnit child.Id = .ok resp ∧
        k = awsToString resp.Name ∧ ou.Name = awsToString resp.Name ∧
        ou.ID = awsToString resp.Id ∧ RolledUpOU a ou child.Id) ∧
      RolledUpUnits a rest id
end

/-- Every root-level unit of the map is a root that `ListRoots` lists, stored under its
name and with its name and ID, and it and every unit below it, at every depth, hold
the accounts listed directly under them and the accounts of their child units. -/
def RolledUp (a : AWSOrgTreeProvider) (orgUnits : GoMap OrgUnit) : Prop :=
  ∀ e ∈ orgUnits, ∃ roots root,
    paginate a.org.ListRoots = .ok roots ∧ root ∈ roots ∧
    e.1 = awsToString root.Name ∧ e.2.Name = awsToString root.Name ∧
    e.2.ID = awsToString root.Id ∧ RolledUpOU a e.2 root.Id

/-- The units of the worked example with every `Accounts` map left empty. -/
def hollowUnits : GoMap OrgUnit :=
  [("Root", .mk "Root" "r-root" [] [("Infra", .mk "Infra" "ou-infra" [] [] [])] [])]

/-- The tree `getOrgTree` returns in the worked example, before tagging. -/
def exampleUntaggedTree : OrgTree :=
  { ID := "o-1"
    ManagementAccount := exampleAccount []
    Tags := []
    OrgUnits :=
      [("Root", .mk "Root" "r-root" []
        [("Infra", .mk "Infra" "ou-infra" [] [] [("mgmt", exampleAccount [])])]
        [("mgmt", exampleAccount [])])] }

/-! ## Iteration orders -/

/-- The same map of units visited in another order: `Reordered l l'` when `l'` lists
the entries of `l`, and of every `OrgUnits` and `Accounts` map below, in some other
order. Two runs of a `range` loop over one Go map differ in this way. -/
inductive Reordered : List (String × OrgUnit) → List (String × OrgUnit) → Prop where
  | refl (l : List (String × OrgUnit)) : Reordered l l
  | cons (k name id : String) (t : List (String × String))
      {ous ous' : List (String × OrgUnit)} {accts accts' : List (String × Account)}
      {l l' : List (String × OrgUnit)} :
      Reordered ous ous' → accts.Perm accts' → Reordered l l' →
      Reordered ((k, .mk name id t ous accts) :: l) ((k, .mk name id t ous' accts') :: l')
  | swap (x y : String × OrgUnit) (l : List (String × OrgUnit)) :
      Reordered (x :: y :: l) (y :: x :: l)
  | trans {l₁ l₂ l₃ : List (String × OrgUnit)} :
      Reordered l₁ l₂ → Reordered l₂ l₃ → Reordered l₁ l₃

/-- The accounts of a root-level unit with the path `Accounts()` shows for them: the
accounts the unit holds itself with the empty path, those held below it with the
name of the root-level unit alone. -/
def topEntriesOU : OrgUnit → List (Account × List String)
  | .mk name _ _ ous accts =>
      accts.map (fun e => (e.2, [])) ++ (allAccounts ous).map (fun acc => (acc, [name]))

/-- The accounts of all root-level units with the path `Accounts()` shows for them. -/
def topEntries : List (String × OrgUnit) → List (Account × List String)
  | [] => []
  | (_, ou) :: rest => topEntriesOU ou ++ topEntries rest

/-- Two root-level units `X` and `Y`, each holding an account named `a`; the two
accounts differ in ID. -/
def twinTree : OrgTree :=
  { ID := "o-1"
    ManagementAccount := Account.zero
    Tags := []
    OrgUnits :=
      [("X", unit "X" [] [("a", ⟨"111111111111", "a", "a@example.com", true, []⟩)]),
       ("Y", unit "Y" [] [("a", ⟨"222222222222", "a", "a@example.com", true, []⟩)])] }

/-- The tree `twinTree` with its two root-level units visited in the other order. -/
def twinTreeSwapped : OrgTree :=
  { ID := "o-1"
    ManagementAccount := Account.zero
    Tags := []
    OrgUnits :=
      [("Y", unit "Y" [] [("a", ⟨"222222222222", "a", "a@example.com", true, []⟩)]),
       ("X", unit "X" [] [("a", ⟨"111111111111", "a", "a@example.com", true, []⟩)])] }

/-- The accounts of a root-level unit that `Accounts()` can show, with their path: the
accounts held below the unit with the name of the unit, and the accounts the unit
holds itself, unless a unit below holds an account of that name, with the empty
path. -/
def shownEntriesOU : OrgUnit → List (Account × List String)
  | .mk name _ _ ous accts =>
      (accts.map fun e => (e.2, ([] : List String))).filter
          (fun e => decide (e.1.Name ∉ (allAccounts ous).map fun b => b.Name)) ++
        (allAccounts ous).map (fun acc => (acc, [name]))

/-- The accounts of all root-level units that `Accounts()` can show, with their path. -/
def shownEntries : List (String × OrgUnit) → List (Account × List String)
  | [] => []
  | (_, ou) :: rest => shownEntriesOU ou ++ shownEntries rest

/-- One account `a`, held by the root-level unit `X` itself and, as an equal copy, by
the unit `Z` below the root-level unit `Y`. -/
def splitTree : OrgTree :=
  { ID := "o-1"
    ManagementAccount := Account.zero
    Tags := []
    OrgUnits :=
      [("X", unit "X" [] [("a", account "a")]),
       ("Y", unit "Y" [("Z", unit "Z" [] [("a", account "a")])] [])] }

/-- The tree `splitTree` with its two root-level units visited in the other order. -/
def splitTreeSwapped : OrgTree :=
  { ID := "o-1"
    ManagementAccount := Account.zero
    Tags := []
    OrgUnits :=
      [("Y", unit "Y" [("Z", unit "Z" [] [("a", account "a")])] []),
       ("X", unit "X" [] [("a", account "a")])] }

/-- A tree as `getOrgTree` builds it: the root-level unit `Root` has the child units
`Dev`, holding `build`, and `Ops`, holding `run`, and holds the rolled-up copies of
both accounts. -/
def rolledTree : OrgTree :=
  { ID := "o-1"
    ManagementAccount := Account.zero
    Tags := []
    OrgUnits :=
      [("Root", unit "Root"
        [("Dev", unit "Dev" [] [("build", account "build")]),
         ("Ops", unit "Ops" [] [("run", account "run")])]
        [("build", account "build"), ("run", account "run")])] }

/-- The tree `rolledTree` with the child units and the accounts of `Root` visited in
the other order. -/
def rolledTreeSwapped : OrgTree :=
  { ID := "o-1"
    ManagementAccount := Account.zero
    Tags := []
    OrgUnits :=
      [("Root", unit "Root"
        [("Ops", unit "Ops" [] [("run", account "run")]),
         ("Dev", unit "Dev" [] [("build", account "build")])]
        [("run", account "run"), ("build", account "build")])] }

/-! ## Theorems -/

/-- C3 (fails on the code): in `nestedTree` the account `deep` is held by the unit
`Root/Infra/Sub` and the account `top` by `Root`, yet `Accounts()` gives `deep` the
path `["Root"]` and `top` the empty path: each level of `walkAccounts` overwrites
the path of what the level below returned, and direct accounts get the path without
their own unit. -/
theorem accounts_path_not_full :
    nestedTree.AccountsView "deep" =
      some ("id-deep", "deep@example.com", true, [], ["Root"]) ∧
    holderPaths nestedTree.OrgUnits "deep" [] = [["Root", "Infra", "Sub"]] ∧
    nestedTree.AccountsView "top" = some ("id-top", "top@example.com", true, [], []) ∧
    holderPaths nestedTree.OrgUnits "top" [] = [["Root"]] := by
  refine ⟨?_, ?_, ?_, ?_⟩ <;> decide

/-- C4 (fails on the code): in `fiveLevelTree` the units `A` and `B` of the fourth level
share the backing array of their parent's path (length 3, capacity 4), so the
`ParentPath` of `A1` reads `.., "B"` once the loop has reached `B`; the specified
descriptor of `A1` has the path `.., "A"`. -/
theorem orgUnitsInfo_parentPath_aliased :
    fiveLevelTree.OrgUnitsView =
      [("Root", "ou-Root", []), ("L2", "ou-L2", ["Root"]), ("L3", "ou-L3", ["Root", "L2"]),
       ("A", "ou-A", ["Root", "L2", "L3"]), ("A1", "ou-A1", ["Root", "L2", "L3", "B"]),
       ("B", "ou-B", ["Root", "L2", "L3"]), ("B1", "ou-B1", ["Root", "L2", "L3", "B"])] ∧
    ancestorsOUs fiveLevelTree.OrgUnits [] =
      [("Root", "ou-Root", []), ("L2", "ou-L2", ["Root"]), ("L3", "ou-L3", ["Root", "L2"]),
       ("A", "ou-A", ["Root", "L2", "L3"]), ("A1", "ou-A1", ["Root", "L2", "L3", "A"]),
       ("B", "ou-B", ["Root", "L2", "L3"]), ("B1", "ou-B1", ["Root", "L2", "L3", "B"])] := by
  refine ⟨?_, ?_⟩ <;> decide

/-! ### Tagging -/

namespace GoMap
variable {V : Type}

theorem set_append_of_not_mem (pre rest : GoMap V) (k : String) (v val : V)
    (h : k ∉ keys pre) : set (pre ++ (k, v) :: rest) k val = pre ++ (k, val) :: rest := by
  induction pre with
  | nil => simp [set]
  | cons e pre ih =>
      obtain ⟨k', v'⟩ := e
      simp only [keys, List.map_cons, List.mem_cons, not_or] at h
      have hne : ¬ k' = k := fun h' => h.1 h'.symm
      simp only [List.cons_append, set, hne, if_false]
      exact congrArg _ (ih (by simpa [keys] using h.2))

end GoMap

theorem tagAccounts_eq_aux (tags : GoMap (GoMap String)) :
    ∀ (remaining pre : List (String × Account)),
      (GoMap.keys (pre ++ remaining)).Nodup →
      tagAccounts tags remaining (pre ++ remaining) =
        pre ++ remaining.map fun e => (e.1, withTags tags e.2)
  | [], pre, _ => by simp [tagAccounts]
  | (k2, account) :: remaining, pre, h => by
      have hk : k2 ∉ GoMap.keys pre := by
        simp only [GoMap.keys, List.map_append, List.map_cons] at h
        have := (List.nodup_append.mp h).2.2
        intro hmem
        exact this hmem (List.mem_cons_self _ _)
      have hstep : ∀ a' : Account,
          (GoMap.keys ((pre ++ [(k2, a')]) ++ remaining)).Nodup := by
        intro a'
        simpa [GoMap.keys] using h
      cases hval : tags.get? account.ID with
      | none =>
          have ih := tagAccounts_eq_aux tags remaining (pre ++ [(k2, account)]) (hstep account)
          simp only [List.append_assoc, List.singleton_append] at ih
          simp [tagAccounts, hval, withTags, ih]
      | some val =>
          have ih := tagAccounts_eq_aux tags remaining
            (pre ++ [(k2, { account with Tags := val })]) (hstep _)
          simp only [List.append_assoc, List.singleton_append] at ih
          simp only [tagAccounts, hval, List.map_cons]
          rw [GoMap.set_append_of_not_mem pre remaining k2 account _ hk, ih]
          simp [withTags, hval]

theorem tagAccounts_eq (tags : GoMap (GoMap String)) (accounts : GoMap Account)
    (h : (GoMap.keys accounts).Nodup) :
    tagAccounts tags accounts accounts = accounts.map fun e => (e.1, withTags tags e.2) := by
  simpa using tagAccounts_eq_aux tags accounts [] (by simpa using h)

mutual
theorem addTagsOrgUnit_eq (tags : GoMap (GoMap String)) :
    ∀ ou : OrgUnit, accountKeysDistinctOU ou →
      addTagsOrgUnit tags ou = mapAccountsOU (withTags tags) ou
  | .mk name id t ous accts, h => by
      simp only [accountKeysDistinctOU] at h
      simp only [addTagsOrgUnit, mapAccountsOU, tagAccounts_eq tags accts h.1,
        addTagsAccounts_eq tags ous h.2]
theorem addTagsAccounts_eq (tags : GoMap (GoMap String)) :
    ∀ ous : List (String × OrgUnit), accountKeysDistinct ous →
      addTagsAccounts tags ous = mapAccounts (withTags tags) ous
  | [], _ => by simp [addTagsAccounts, mapAccounts]
  | (k, ou) :: rest, h => by
      simp only [accountKeysDistinct] at h
      simp only [addTagsAccounts, mapAccounts, addTagsOrgUnit_eq tags ou h.1,
        addTagsAccounts_eq tags rest h.2]
end


mutual
theorem allAccountsOU_mapAccountsOU (f : Account → Account) :
    ∀ ou : OrgUnit, allAccountsOU (mapAccountsOU f ou) = (allAccountsOU ou).map f
  | .mk _ _ _ ous accts => by
      simp [allAccountsOU, mapAccountsOU, allAccounts_mapAccounts f ous, Function.comp_def]
theorem allAccounts_mapAccounts (f : Account → Account) :
    ∀ ous : List (String × OrgUnit), allAccounts (mapAccounts f ous) = (allAccounts ous).map f
  | [] => by simp [allAccounts, mapAccounts]
  | (_, ou) :: rest => by
      simp [allAccounts, mapAccounts, allAccountsOU_mapAccountsOU f ou,
        allAccounts_mapAccounts f rest]
end

mutual
theorem eraseTagsOU_mapAccountsOU (f : Account → Account)
    (hf : ∀ a, { f a with Tags := [] } = { a with Tags := [] }) :
    ∀ ou : OrgUnit, eraseTagsOU (mapAccountsOU f ou) = eraseTagsOU ou
  | .mk _ _ _ ous accts => by
      simp [eraseTagsOU, mapAccountsOU, eraseTags_mapAccounts f hf ous, hf]
theorem eraseTags_mapAccounts (f : Account → Account)
    (hf : ∀ a, { f a with Tags := [] } = { a with Tags := [] }) :
    ∀ ous : List (String × OrgUnit), eraseTags (mapAccounts f ous) = eraseTags ous
  | [] => by simp [eraseTags, mapAccounts]
  | (_, ou) :: rest => by
      simp [eraseTags, mapAccounts, eraseTagsOU_mapAccountsOU f hf ou,
        eraseTags_mapAccounts f hf rest]
end

mutual
theorem accountKeysDistinctOU_mapAccountsOU (f : Account → Account) :
    ∀ ou : OrgUnit, accountKeysDistinctOU ou → accountKeysDistinctOU (mapAccountsOU f ou)
  | .mk _ _ _ ous accts, h => by
      simp only [accountKeysDistinctOU] at h
      simp only [mapAccountsOU, accountKeysDistinctOU]
      refine ⟨?_, accountKeysDistinct_mapAccounts f ous h.2⟩
      simpa [GoMap.keys, Function.comp_def] using h.1
theorem accountKeysDistinct_mapAccounts (f : Account → Account) :
    ∀ ous : List (String × OrgUnit), accountKeysDistinct ous →
      accountKeysDistinct (mapAccounts f ous)
  | [], _ => by simp [accountKeysDistinct, mapAccounts]
  | (_, ou) :: rest, h => by
      simp only [accountKeysDistinct] at h
      simp only [mapAccounts, accountKeysDistinct]
      exact ⟨accountKeysDistinctOU_mapAccountsOU f ou h.1,
        accountKeysDistinct_mapAccounts f rest h.2⟩
end

mutual
theorem mapAccountsOU_idem (f : Account → Account) (hf : ∀ a, f (f a) = f a) :
    ∀ ou : OrgUnit, mapAccountsOU f (mapAccountsOU f ou) = mapAccountsOU f ou
  | .mk _ _ _ ous accts => by
      simp [mapAccountsOU, mapAccounts_idem f hf ous, hf]
theorem mapAccounts_idem (f : Account → Account) (hf : ∀ a, f (f a) = f a) :
    ∀ ous : List (String × OrgUnit), mapAccounts f (mapAccounts f ous) = mapAccounts f ous
  | [] => by simp [mapAccounts]
  | (_, ou) :: rest => by
      simp [mapAccounts, mapAccountsOU_idem f hf ou, mapAccounts_idem f hf rest]
end

theorem withTags_erase (tags : GoMap (GoMap String)) (a : Account) :
    { withTags tags a with Tags := [] } = { a with Tags := [] } := by
  unfold withTags
  cases tags.get? a.ID <;> rfl

theorem withTags_idem (tags : GoMap (GoMap String)) (a : Account) :
    withTags tags (withTags tags a) = withTags tags a := by
  unfold withTags
  cases h : tags.get? a.ID <;> simp [h]

/-- C5: after `addTagsAccounts` nothing but account tags has changed (same units, keys,
accounts, names, IDs, emails and active flags at every depth), every account whose
ID is a key of the mapping carries the mapping's value for that ID, and every other
account keeps its tags. -/
theorem addTagsAccounts_sets_tags_only (tags : GoMap (GoMap String))
    (orgUnits : GoMap OrgUnit) (h : accountKeysDistinct orgUnits) :
    eraseTags (addTagsAccounts tags orgUnits) = eraseTags orgUnits ∧
    List.Forall₂
      (fun before after : Account =>
        after.ID = before.ID ∧ after.Name = before.Name ∧ after.Email = before.Email ∧
        after.Active = before.Active ∧
        (∀ val, tags.get? before.ID = some val → after.Tags = val) ∧
        (tags.get? before.ID = none → after.Tags = before.Tags))
      (allAccounts orgUnits) (allAccounts (addTagsAccounts tags orgUnits)) := by
  rw [addTagsAccounts_eq tags orgUnits h]
  refine ⟨eraseTags_mapAccounts _ (withTags_erase tags) orgUnits, ?_⟩
  rw [allAccounts_mapAccounts, List.forall₂_map_right_iff, List.forall₂_same]
  intro a _
  unfold withTags
  cases hval : tags.get? a.ID <;> simp

/-- C5, at an instance: `nestedTree` tagged with a mapping for the account `deep`. -/
theorem addTagsAccounts_sets_tags_only_witness :
    accountKeysDistinct nestedTree.OrgUnits ∧
    eraseTags (addTagsAccounts [("id-deep", [("env", "prod")])] nestedTree.OrgUnits) =
      eraseTags nestedTree.OrgUnits :=
  ⟨by simp [accountKeysDistinct, accountKeysDistinctOU, nestedTree, unit, GoMap.keys],
   (addTagsAccounts_sets_tags_only [("id-deep", [("env", "prod")])] nestedTree.OrgUnits
      (by simp [accountKeysDistinct, accountKeysDistinctOU, nestedTree, unit, GoMap.keys])).1⟩

/-- C6: tagging twice with the same mapping leaves the same tree as tagging once. -/
theorem addTagsAccounts_idempotent (tags : GoMap (GoMap String))
    (orgUnits : GoMap OrgUnit) (h : accountKeysDistinct orgUnits) :
    addTagsAccounts tags (addTagsAccounts tags orgUnits) = addTagsAccounts tags orgUnits := by
  rw [addTagsAccounts_eq tags orgUnits h,
    addTagsAccounts_eq tags _ (accountKeysDistinct_mapAccounts _ orgUnits h)]
  exact mapAccounts_idem _ (withTags_idem tags) orgUnits

/-- C6, at an instance: `nestedTree` tagged twice with a mapping for `deep`. -/
theorem addTagsAccounts_idempotent_witness :
    accountKeysDistinct nestedTree.OrgUnits ∧
    addTagsAccounts [("id-deep", [("env", "prod")])]
        (addTagsAccounts [("id-deep", [("env", "prod")])] nestedTree.OrgUnits) =
      addTagsAccounts [("id-deep", [("env", "prod")])] nestedTree.OrgUnits :=
  ⟨by simp [accountKeysDistinct, accountKeysDistinctOU, nestedTree, unit, GoMap.keys],
   addTagsAccounts_idempotent [("id-deep", [("env", "prod")])] nestedTree.OrgUnits
      (by simp [accountKeysDistinct, accountKeysDistinctOU, nestedTree, unit, GoMap.keys])⟩

/-! ### The tag fetch -/

namespace GoMap
variable {V : Type}

theorem get?_set (m : GoMap V) (k k' : String) (v : V) :
    (set m k v).get? k' = if k = k' then some v else m.get? k' := by
  induction m with
  | nil => simp [set, get?]
  | cons e m ih =>
      obtain ⟨k0, v0⟩ := e
      by_cases h0 : k0 = k
      · subst h0
        by_cases h1 : k0 = k' <;> simp [set, get?, h1]
      · by_cases h1 : k0 = k'
        · subst h1
          have : ¬ k = k0 := fun h => h0 h.symm
          simp [set, get?, h0, this]
        · simp [set, get?, h0, h1, ih]

theorem mem_keys_iff (m : GoMap V) (k : String) : k ∈ keys m ↔ (m.get? k).isSome = true := by
  induction m with
  | nil => simp [keys, get?]
  | cons e m ih =>
      obtain ⟨k0, v0⟩ := e
      by_cases h0 : k0 = k
      · simp [keys, get?, h0]
      · have h1 : ¬ k = k0 := fun h => h0 h.symm
        simp only [keys, List.map_cons, List.mem_cons, h1, false_or, get?, h0, if_false]
        simpa [keys] using ih

end GoMap

theorem takeWhile_append_of_exists {α : Type} (p : α → Bool) :
    ∀ (l₁ l₂ : List α), (∃ x ∈ l₁, p x = false) →
      (l₁ ++ l₂).takeWhile p = l₁.takeWhile p
  | [], _, h => by simp at h
  | a :: l₁, l₂, h => by
      cases hp : p a with
      | false => simp [List.takeWhile, hp]
      | true =>
          have h' : ∃ x ∈ l₁, p x = false := by
            obtain ⟨x, hx, hpx⟩ := h
            rcases List.mem_cons.mp hx with rfl | hx
            · rw [hp] at hpx; cases hpx
            · exact ⟨x, hx, hpx⟩
          simp [List.takeWhile, hp, takeWhile_append_of_exists p l₁ l₂ h']

theorem takeWhile_append_of_forall {α : Type} (p : α → Bool) :
    ∀ (l₁ l₂ : List α), (∀ x ∈ l₁, p x = true) →
      (l₁ ++ l₂).takeWhile p = l₁ ++ l₂.takeWhile p
  | [], _, _ => by simp
  | a :: l₁, l₂, h => by
      have hp : p a = true := h a (List.mem_cons_self _ _)
      have h' : ∀ x ∈ l₁, p x = true := fun x hx => h x (List.mem_cons_of_mem _ hx)
      simp [List.takeWhile, hp, takeWhile_append_of_forall p l₁ l₂ h']

/-- The characters after the last separator. -/
theorem trailing_cons (sep c : Char) (cs : List Char) :
    ((c :: cs).reverse.takeWhile fun x => decide (x ≠ sep)).reverse =
      if sep ∈ cs then (cs.reverse.takeWhile fun x => decide (x ≠ sep)).reverse
      else if c = sep then cs else c :: cs := by
  by_cases hs : sep ∈ cs
  · simp only [hs, if_true, List.reverse_cons]
    rw [takeWhile_append_of_exists]
    exact ⟨sep, List.mem_reverse.mpr hs, by simp⟩
  · simp only [hs, if_false, List.reverse_cons]
    rw [takeWhile_append_of_forall]
    · by_cases hc : c = sep <;> simp [List.takeWhile, hc]
    · intro x hx
      have : x ≠ sep := fun h => hs (h ▸ List.mem_reverse.mp hx)
      simpa using this

theorem trailing_of_not_mem (sep : Char) (cs : List Char) (h : sep ∉ cs) :
    (cs.reverse.takeWhile fun x => decide (x ≠ sep)).reverse = cs := by
  have := takeWhile_append_of_forall (fun x => decide (x ≠ sep)) cs.reverse []
    (by
      intro x hx
      have : x ≠ sep := fun h' => h (h' ▸ List.mem_reverse.mp hx)
      simpa using this)
  simp only [List.append_nil, List.takeWhile_nil] at this
  rw [this, List.reverse_reverse]

theorem splitChars_ne_nil (sep : Char) : ∀ cs : List Char, splitChars sep cs ≠ []
  | [] => by simp [splitChars]
  | c :: cs => by
      have ih := splitChars_ne_nil sep cs
      by_cases hc : c = sep
      · simp [splitChars, hc]
      · cases hsplit : splitChars sep cs with
        | nil => exact absurd hsplit ih
        | cons seg segs => simp [splitChars, hc, hsplit]

theorem splitChars_of_not_mem (sep : Char) :
    ∀ cs : List Char, sep ∉ cs → splitChars sep cs = [cs]
  | [], _ => by simp [splitChars]
  | c :: cs, h => by
      have hc : ¬ c = sep := fun h' => h (h' ▸ List.mem_cons_self _ _)
      have ih := splitChars_of_not_mem sep cs (fun h' => h (List.mem_cons_of_mem _ h'))
      simp [splitChars, hc, ih]

theorem splitChars_length_of_mem (sep : Char) :
    ∀ cs : List Char, sep ∈ cs → 2 ≤ (splitChars sep cs).length
  | [], h => by simp at h
  | c :: cs, h => by
      by_cases hc : c = sep
      · have := List.length_pos.mpr (splitChars_ne_nil sep cs)
        simp only [splitChars, hc, if_true, List.length_cons]
        omega
      · have hmem : sep ∈ cs := by
          rcases List.mem_cons.mp h with h' | h'
          · exact absurd h'.symm hc
          · exact h'
        have ih := splitChars_length_of_mem sep cs hmem
        cases hsplit : splitChars sep cs with
        | nil => exact absurd hsplit (splitChars_ne_nil sep cs)
        | cons seg segs =>
            rw [hsplit] at ih
            simp only [splitChars, hc, if_false, hsplit]
            simpa using ih

/-- The last segment `strings.Split` returns is the text after the last separator. -/
theorem splitChars_getLast? (sep : Char) :
    ∀ cs : List Char, (splitChars sep cs).getLast? =
      some (cs.reverse.takeWhile fun x => decide (x ≠ sep)).reverse
  | [] => by simp [splitChars]
  | c :: cs => by
      have ih := splitChars_getLast? sep cs
      rw [trailing_cons]
      by_cases hs : sep ∈ cs
      · simp only [hs, if_true]
        have hlen := splitChars_length_of_mem sep cs hs
        by_cases hc : c = sep
        · simp only [splitChars, hc, if_true]
          cases hsplit : splitChars sep cs with
          | nil => exact absurd hsplit (splitChars_ne_nil sep cs)
          | cons seg segs =>
              rw [hsplit] at ih
              rw [List.getLast?_cons_cons]
              exact ih
        · cases hsplit : splitChars sep cs with
          | nil => exact absurd hsplit (splitChars_ne_nil sep cs)
          | cons seg segs =>
              rw [hsplit] at ih hlen
              cases segs with
              | nil => simp at hlen
              | cons seg' segs' =>
                  simp only [splitChars, hc, if_false, hsplit]
                  rw [List.getLast?_cons_cons] at ih ⊢
                  exact ih
      · simp only [hs, if_false]
        have hsplit := splitChars_of_not_mem sep cs hs
        by_cases hc : c = sep
        · subst hc
          simp [splitChars, hsplit]
        · simp [splitChars, hc, hsplit]

/-- The account ID `getTagsForAccounts` derives from an ARN, and that the index
`len(splitArn)-1` is always in range. -/
theorem stringsSplit_last (arn : String) :
    (stringsSplit arn '/').length ≠ 0 ∧
    (stringsSplit arn '/').get? ((stringsSplit arn '/').length - 1) =
      some (trailingSegment arn) := by
  have hne := splitChars_ne_nil '/' arn.data
  have hlast := splitChars_getLast? '/' arn.data
  constructor
  · simpa [stringsSplit] using hne
  · have : (stringsSplit arn '/').getLast? = some (trailingSegment arn) := by
      simp [stringsSplit, List.getLast?_map, hlast, trailingSegment]
    rw [← this, List.getLast?_eq_getElem?]
    simp


theorem foldl_set_get? {α V : Type} (key : α → String) (val : α → V) :
    ∀ (items : List α) (acc : GoMap V) (k : String),
      (items.foldl (fun m x => m.set (key x) (val x)) acc).get? k =
        match items.reverse.find? (fun x => decide (key x = k)) with
        | some x => some (val x)
        | none => acc.get? k
  | [], acc, k => by simp
  | x :: items, acc, k => by
      rw [List.foldl_cons, foldl_set_get? key val items, List.reverse_cons, List.find?_append]
      cases hfind : items.reverse.find? (fun x => decide (key x = k)) with
      | some y => simp
      | none =>
          by_cases hk : key x = k
          · simp [List.find?, hk, GoMap.get?_set]
          · simp [List.find?, hk, GoMap.get?_set]

/-- The loop over the resources never panics; afterwards a key holds the tags of the
last resource with that trailing segment, or what it held before. -/
theorem tagResources_spec :
    ∀ (resources : List types.ResourceTagMapping) (acc : GoMap (GoMap String)),
      ∃ m, tagResources resources acc = some m ∧
        ∀ k, m.get? k =
          match resources.reverse.find?
              (fun res => decide (trailingSegment (awsToString res.ResourceARN) = k)) with
          | some res => some (accountTagsOf res.Tags)
          | none => acc.get? k
  | [], acc => ⟨acc, by simp [tagResources], by simp⟩
  | res :: resources, acc => by
      obtain ⟨hlen, hget⟩ := stringsSplit_last (awsToString res.ResourceARN)
      obtain ⟨m, hm, hspec⟩ := tagResources_spec resources
        (acc.set (trailingSegment (awsToString res.ResourceARN)) (accountTagsOf res.Tags))
      refine ⟨m, ?_, ?_⟩
      · simp only [tagResources, hlen, if_false, hget]
        exact hm
      · intro k
        rw [hspec k, List.reverse_cons, List.find?_append]
        cases hfind : resources.reverse.find?
            (fun res => decide (trailingSegment (awsToString res.ResourceARN) = k)) with
        | some y => simp
        | none =>
            by_cases hk : trailingSegment (awsToString res.ResourceARN) = k
            · simp [List.find?, hk, GoMap.get?_set]
            · simp [List.find?, hk, GoMap.get?_set]

theorem tagResources_append :
    ∀ (l₁ l₂ : List types.ResourceTagMapping) (acc : GoMap (GoMap String)),
      tagResources (l₁ ++ l₂) acc = (tagResources l₁ acc).bind (tagResources l₂)
  | [], l₂, acc => by simp [tagResources]
  | res :: l₁, l₂, acc => by
      obtain ⟨hlen, hget⟩ := stringsSplit_last (awsToString res.ResourceARN)
      simp only [List.cons_append, tagResources, hlen, if_false, hget]
      exact tagResources_append l₁ l₂ _

theorem tagPages_ok :
    ∀ (pages : List (List types.ResourceTagMapping)) (acc : GoMap (GoMap String)),
      tagPages (pages.map Except.ok) acc =
        match tagResources pages.flatten acc with
        | some m => Outcome.returned (.ok m)
        | none => Outcome.panic
  | [], acc => by simp [tagPages, tagResources]
  | page :: pages, acc => by
      simp only [List.map_cons, tagPages, List.flatten_cons, tagResources_append]
      cases h : tagResources page acc with
      | none => simp
      | some m => simpa using tagPages_ok pages m

/-- C8: when every page of tagged resources arrives without error, `getTagsForAccounts`
returns (no index is out of range, whatever the ARNs) a map whose keys are exactly
the trailing segments of the resource ARNs, and the value of a key is the tag set of
the last resource, in page order, with that trailing segment; the tag set of a
resource maps each tag key to the value of its last tag with that key. -/
theorem getTagsForAccounts_keys_and_values (org : Organizations)
    (pages : List (List types.ResourceTagMapping)) :
    ∃ accountsTags,
      AWSOrgTreeProvider.getTagsForAccounts ⟨org, ⟨pages.map Except.ok⟩⟩ =
        Outcome.returned (.ok accountsTags) ∧
      (∀ k, k ∈ GoMap.keys accountsTags ↔
        ∃ res ∈ pages.flatten, trailingSegment (awsToString res.ResourceARN) = k) ∧
      (∀ k res,
        pages.flatten.reverse.find?
            (fun r => decide (trailingSegment (awsToString r.ResourceARN) = k)) = some res →
          accountsTags.get? k = some (accountTagsOf res.Tags)) ∧
      (∀ (tags : List types.Tag) (key : String),
        (accountTagsOf tags).get? key =
          (tags.reverse.find? fun tag => decide (awsToString tag.Key = key)).map
            fun tag => awsToString tag.Value) := by
  obtain ⟨m, hm, hspec⟩ := tagResources_spec pages.flatten []
  refine ⟨m, ?_, ?_, ?_, ?_⟩
  · simp [AWSOrgTreeProvider.getTagsForAccounts, tagPages_ok, hm]
  · intro k
    rw [GoMap.mem_keys_iff, hspec k]
    cases hfind : pages.flatten.reverse.find?
        (fun res => decide (trailingSegment (awsToString res.ResourceARN) = k)) with
    | some res =>
        have hmem := List.mem_of_find?_eq_some hfind
        have hp := List.find?_some hfind
        simp only [Option.isSome_some, true_iff]
        exact ⟨res, List.mem_reverse.mp hmem, by simpa using hp⟩
    | none =>
        simp only [GoMap.get?, Option.isSome_none, Bool.false_eq_true, false_iff]
        rintro ⟨res, hres, hk⟩
        have := List.find?_eq_none.mp hfind res (List.mem_reverse.mpr hres)
        simp [hk] at this
  · intro k res hfind
    rw [hspec k, hfind]
  · intro tags key
    unfold accountTagsOf
    rw [foldl_set_get? (fun tag : types.Tag => awsToString tag.Key)
      (fun tag : types.Tag => awsToString tag.Value) tags [] key]
    cases tags.reverse.find? (fun tag => decide (awsToString tag.Key = key)) <;>
      simp [GoMap.get?]

/-- The trailing segment of an ARN without `/` is the ARN. -/
theorem trailingSegment_of_no_slash (arn : String) (h : '/' ∉ arn.data) :
    trailingSegment arn = arn := by
  unfold trailingSegment
  rw [trailing_of_not_mem '/' arn.data h]

/-- The trailing segment is the text after the last `/`. -/
theorem trailingSegment_after_slash (pre seg : List Char) (h : '/' ∉ seg) :
    trailingSegment (String.mk (pre ++ '/' :: seg)) = String.mk seg := by
  unfold trailingSegment
  congr 1
  simp only [List.reverse_append, List.reverse_cons, List.append_assoc]
  rw [takeWhile_append_of_forall]
  · simp [List.takeWhile]
  · intro x hx
    have : x ≠ '/' := fun h' => h (h' ▸ List.mem_reverse.mp hx)
    simpa using this

/-! ### The management account -/

theorem listAccounts_untagged (managementAccountID : String) :
    ∀ (accountsList : List types.Account) (accounts : GoMap Account) (m : Option Account),
      Untagged m → Untagged (listAccounts managementAccountID accountsList accounts m).2
  | [], _, _, h => by simpa [listAccounts] using h
  | account :: rest, accounts, m, h => by
      simp only [listAccounts]
      apply listAccounts_untagged managementAccountID rest
      split
      · intro m' hm'
        cases hm'
        rfl
      · exact h

theorem accountsGoroutine_untagged (a : AWSOrgTreeProvider) (parentID : Option String)
    (managementAccountID : String) :
    Untagged (accountsGoroutine a parentID managementAccountID).managementAccount := by
  unfold accountsGoroutine
  split
  · intro m hm; cases hm
  · exact listAccounts_untagged managementAccountID _ [] none (fun m hm => by cases hm)

theorem childGoroutine_untagged
    (walk : Option String → List String → Outcome (Call WalkResult))
    (hwalk : ∀ id OU r, walk id OU = .returned (.ok r) → Untagged r.2.2)
    (a : AWSOrgTreeProvider) (child : types.Child) (OU : List String) :
    ∀ r ∈ (childGoroutine walk a child OU).sends, Untagged r.management := by
  intro r hr
  unfold childGoroutine at hr
  split at hr
  · simp only [List.mem_singleton] at hr
    subst hr
    intro m hm; cases hm
  · split at hr
    · rename_i childOrgUnits childAccounts childManagementAccount hw
      simp only [List.mem_singleton] at hr
      subst hr
      exact hwalk _ _ _ hw
    · simp only [List.mem_cons, List.mem_singleton, List.not_mem_nil, or_false] at hr
      rcases hr with rfl | rfl <;> (intro m hm; cases hm)
    all_goals simp at hr

theorem waitChildren_received (capacity : Nat) (runs : List ChildRun)
    (orgUnits : GoMap OrgUnit) (received : List OrgUnitAccountResponse)
    (h : waitChildren capacity runs = .returned (orgUnits, received)) :
    orgUnits = childWrites runs [] ∧
    received = (runs.map fun run => run.sends).flatten := by
  unfold waitChildren at h
  split at h; · cases h
  split at h; · cases h
  split at h; · cases h
  split at h; · cases h
  simp only [Outcome.returned.injEq, Prod.mk.injEq] at h
  exact ⟨h.1.symm, h.2.symm⟩

theorem gather_untagged :
    ∀ (received : List OrgUnitAccountResponse) (g g' : Gathered),
      (∀ r ∈ received, Untagged r.management) → Untagged g.managementAccount →
      gather received g = .ok g' → Untagged g'.managementAccount
  | [], g, g', _, hg, h => by
      simp only [gather, Except.ok.injEq] at h
      subst h
      exact hg
  | r :: rest, g, g', hr, hg, h => by
      simp only [gather] at h
      split at h
      · cases h
      · refine gather_untagged rest _ g' (fun r' hr' => hr r' (List.mem_cons_of_mem _ hr')) ?_ h
        have hr0 := hr r (List.mem_cons_self _ _)
        dsimp only
        split
        · rename_i m hm
          intro m' hm'
          cases hm'
          exact hr0 m hm
        · exact hg

theorem walkOUTree_untagged (a : AWSOrgTreeProvider) (s : Schedule) :
    ∀ (fuel : Nat) (parentID : Option String) (orgId managementAccountID : String)
      (OU : List String) (r : WalkResult),
      walkOUTree a s fuel parentID orgId managementAccountID OU = .returned (.ok r) →
      Untagged r.2.2
  | 0, _, _, _, _, _, h => by simp [walkOUTree] at h
  | fuel + 1, parentID, orgId, managementAccountID, OU, r, h => by
      simp only [walkOUTree] at h
      split at h; · cases h
      rename_i children hchildren
      split at h
      any_goals cases h
      rename_i orgUnits received hwait
      split at h; · cases h
      rename_i g hg
      split at h; · cases h
      simp only [Outcome.returned.injEq, Except.ok.injEq] at h
      subst h
      obtain ⟨_, hrec⟩ := waitChildren_received _ _ _ _ hwait
      have hmsgs : ∀ r ∈ received, Untagged r.management := by
        intro r hr
        rw [hrec] at hr
        simp only [List.mem_flatten, List.mem_map, exists_exists_and_eq_and] at hr
        obtain ⟨child, _, hmem⟩ := hr
        exact childGoroutine_untagged _
          (fun id childOU r' hr' =>
            walkOUTree_untagged a s fuel id orgId managementAccountID childOU r' hr')
          a child OU r hmem
      have hgath := gather_untagged _ _ g
        (fun r hr => hmsgs r (List.mem_of_mem_take hr))
        (fun m hm => by cases hm) hg
      have hacc := accountsGoroutine_untagged a parentID managementAccountID
      dsimp only
      split
      · rename_i m hm
        intro m' hm'
        cases hm'
        exact hacc m hm
      · exact hgath

theorem rootsLoop_untagged (a : AWSOrgTreeProvider) (s : Schedule) (fuel : Nat)
    (orgId managementAccountID : String) :
    ∀ (roots : List types.Root) (tree tree' : OrgTree),
      tree.ManagementAccount.Tags = [] →
      rootsLoop a s fuel orgId managementAccountID roots tree = .returned (.ok tree') →
      tree'.ManagementAccount.Tags = []
  | [], tree, tree', ht, h => by
      simp only [rootsLoop, Outcome.returned.injEq, Except.ok.injEq] at h
      subst h
      exact ht
  | root :: rest, tree, tree', ht, h => by
      simp only [rootsLoop] at h
      split at h
      any_goals cases h
      rename_i orgUnits accounts managementAccount hwalk
      refine rootsLoop_untagged a s fuel orgId managementAccountID rest _ tree' ?_ h
      have := walkOUTree_untagged a s fuel _ _ _ _ _ hwalk
      dsimp only
      split
      · rename_i m
        exact this m rfl
      · exact ht

theorem getOrgTree_untagged (a : AWSOrgTreeProvider) (s : Schedule) (fuel : Nat)
    (tree : OrgTree) (h : a.getOrgTree s fuel = .returned (.ok tree)) :
    tree.ManagementAccount.Tags = [] := by
  unfold AWSOrgTreeProvider.getOrgTree at h
  split at h; · cases h
  split at h; · cases h
  exact rootsLoop_untagged a s fuel _ _ _ _ tree rfl h

/-- C10: in every tree `OrgTree` returns, `ManagementAccount.Tags` is empty: the
account is copied out of the listing before any tag is applied, and tags are applied
to the `Accounts` maps only. -/
theorem OrgTree_managementAccount_untagged (a : AWSOrgTreeProvider) (s : Schedule)
    (fuel : Nat) (tree : OrgTree) (h : a.OrgTree s fuel = Outcome.returned (.ok tree)) :
    tree.ManagementAccount.Tags = [] := by
  unfold AWSOrgTreeProvider.OrgTree at h
  split at h
  any_goals cases h
  split at h
  · rename_i tree0 htree
    split at h
    · cases h
    · simp only [Outcome.returned.injEq, Except.ok.injEq] at h
      subst h
      exact getOrgTree_untagged a s fuel tree0 htree
  · rename_i hne
    exact absurd h (hne tree)

/-- C10, at the worked example: the tag mapping has an entry for the management
account and the copy in `OrgUnits` carries `env = prod`, while
`ManagementAccount.Tags` is empty. -/
theorem OrgTree_managementAccount_untagged_witness :
    exampleProvider.OrgTree Schedule.fifo 2 = Outcome.returned (.ok exampleTree) ∧
    exampleProvider.getTagsForAccounts =
      Outcome.returned (.ok [("111111111111", [("env", "prod")])]) ∧
    exampleTree.ManagementAccount.ID = "111111111111" ∧
    ((exampleTree.OrgUnits.get? "Root").bind fun root =>
      (root.Accounts.get? "mgmt").map fun m => (m.ID, m.Tags)) =
        some ("111111111111", [("env", "prod")]) ∧
    exampleTree.ManagementAccount.Tags = [] :=
  ⟨rfl, rfl, rfl, rfl,
    OrgTree_managementAccount_untagged exampleProvider Schedule.fifo 2 exampleTree rfl⟩

/-! ### The worked example -/

/-- C7: whenever the directory answers as in the worked example (organization `o-1`
with management account `111111111111`; one root named `Root` without accounts of
its own whose only child unit is `Infra`; `Infra` without child units and with the
single active account `mgmt`) and the tag fetch returns `{"111111111111": {"env":
"prod"}}`, `OrgTree` succeeds under every schedule, with
`ManagementAccount.ID == "111111111111"` and
`OrgUnits["Root"].OrgUnits["Infra"].Accounts["mgmt"].Tags == {"env": "prod"}`. -/
theorem OrgTree_worked_example (a : AWSOrgTreeProvider) (s : Schedule) (fuel : Nat)
    (root : types.Root) (child : types.Child) (infraId email : Option String)
    (hOrg : a.org.DescribeOrganization = .ok ⟨some "o-1", some "111111111111"⟩)
    (hRoots : paginate a.org.ListRoots = .ok [root]) (hRootName : root.Name = some "Root")
    (hChildren : paginate (a.org.ListChildren root.Id) = .ok [child])
    (hRootAccounts : paginate (a.org.ListAccountsForParent root.Id) = .ok [])
    (hDescribe : a.org.DescribeOrganizationalUnit child.Id = .ok ⟨infraId, some "Infra"⟩)
    (hInfraChildren : paginate (a.org.ListChildren child.Id) = .ok [])
    (hInfraAccounts : paginate (a.org.ListAccountsForParent child.Id) =
      .ok [⟨some "111111111111", some "mgmt", email, .ACTIVE⟩])
    (hTags : a.getTagsForAccounts =
      Outcome.returned (.ok [("111111111111", [("env", "prod")])])) :
    ∃ tree, a.OrgTree s (fuel + 2) = Outcome.returned (.ok tree) ∧
      tree.ManagementAccount.ID = "111111111111" ∧
      ((tree.OrgUnits.get? "Root").bind fun r =>
        (r.OrgUnits.get? "Infra").bind fun i =>
          (i.Accounts.get? "mgmt").map fun m => m.Tags) = some [("env", "prod")] := by
  have hs1 : s.order root.Id [child] = [child] := List.perm_singleton.mp (s.perm _ _)
  have hs0 : s.order child.Id [] = [] := List.perm_nil.mp (s.perm _ _)
  have hInfra : walkOUTree a s (fuel + 1) child.Id "o-1" "111111111111" ["Root", "Infra"] =
      Outcome.returned (.ok ([],
        [("mgmt", ⟨"111111111111", "mgmt", awsToString email, true, []⟩)],
        some ⟨"111111111111", "mgmt", awsToString email, true, []⟩)) := by
    simp [walkOUTree, hInfraChildren, hs0, waitChildren, childWrites, gather,
      accountsGoroutine, hInfraAccounts, listAccounts, awsToString, mergeInto, GoMap.set]
  have hRoot : walkOUTree a s (fuel + 2) root.Id "o-1" "111111111111" ["Root"] =
      Outcome.returned (.ok (
        [("Infra", .mk "Infra" (awsToString infraId) [] []
          [("mgmt", ⟨"111111111111", "mgmt", awsToString email, true, []⟩)])],
        [("mgmt", ⟨"111111111111", "mgmt", awsToString email, true, []⟩)],
        some ⟨"111111111111", "mgmt", awsToString email, true, []⟩)) := by
    rw [walkOUTree]
    simp [hChildren, hs1, waitChildren, childGoroutine, hDescribe, hInfra, childWrites,
      gather, accountsGoroutine, hRootAccounts, listAccounts, awsToString, mergeInto,
      GoMap.set]
  have hTree : a.OrgTree s (fuel + 2) = Outcome.returned (.ok
      { ID := "o-1"
        ManagementAccount := ⟨"111111111111", "mgmt", awsToString email, true, []⟩
        Tags := []
        OrgUnits :=
          [("Root", .mk "Root" (awsToString root.Id) []
            [("Infra", .mk "Infra" (awsToString infraId) [] []
              [("mgmt", ⟨"111111111111", "mgmt", awsToString email, true,
                [("env", "prod")]⟩)])]
            [("mgmt", ⟨"111111111111", "mgmt", awsToString email, true,
              [("env", "prod")]⟩)])] }) := by
    simp [AWSOrgTreeProvider.OrgTree, hTags, AWSOrgTreeProvider.getOrgTree, hRoots,
      hOrg, rootsLoop, hRootName, awsToString, hRoot, GoMap.set, GoMap.get?,
      addTagsAccounts, addTagsOrgUnit, tagAccounts]
  exact ⟨_, hTree, rfl, by simp [GoMap.get?, OrgUnit.OrgUnits, OrgUnit.Accounts]⟩

/-- C7, at the worked example itself. -/
theorem OrgTree_worked_example_witness :
    ∃ tree, exampleProvider.OrgTree Schedule.fifo 2 = Outcome.returned (.ok tree) ∧
      tree.ManagementAccount.ID = "111111111111" ∧
      ((tree.OrgUnits.get? "Root").bind fun r =>
        (r.OrgUnits.get? "Infra").bind fun i =>
          (i.Accounts.get? "mgmt").map fun m => m.Tags) = some [("env", "prod")] :=
  OrgTree_worked_example exampleProvider Schedule.fifo 0
    ⟨some "r-root", some "Root"⟩ ⟨some "ou-infra"⟩ (some "ou-infra") (some "mgmt@example.com")
    rfl rfl rfl rfl rfl rfl rfl rfl rfl

/-! ### Accounts are rolled up into every ancestor -/

theorem mergeInto_eq_foldl {V : Type} :
    ∀ (l : List (String × V)) (all : GoMap V),
      mergeInto l all = l.foldl (fun m e => m.set e.1 e.2) all
  | [], _ => rfl
  | (k, v) :: rest, all => by
      simp only [mergeInto, List.foldl_cons]
      exact mergeInto_eq_foldl rest _

theorem mem_keys_set {V : Type} (m : GoMap V) (k k' : String) (v : V) :
    k' ∈ GoMap.keys (m.set k v) ↔ k' = k ∨ k' ∈ GoMap.keys m := by
  rw [GoMap.mem_keys_iff, GoMap.mem_keys_iff, GoMap.get?_set]
  by_cases h : k = k'
  · simp [h]
  · have : ¬ k' = k := fun h' => h h'.symm
    simp [h, this]

theorem mem_keys_mergeInto {V : Type} :
    ∀ (l : List (String × V)) (all : GoMap V) (k : String),
      k ∈ GoMap.keys (mergeInto l all) ↔ k ∈ GoMap.keys all ∨ k ∈ GoMap.keys l
  | [], all, k => by simp [mergeInto, GoMap.keys]
  | (k0, v0) :: rest, all, k => by
      simp only [mergeInto]
      rw [mem_keys_mergeInto rest, mem_keys_set]
      simp only [GoMap.keys, List.map_cons, List.mem_cons]
      tauto

theorem nodup_keys_set {V : Type} (m : GoMap V) (k : String) (v : V)
    (h : (GoMap.keys m).Nodup) : (GoMap.keys (m.set k v)).Nodup := by
  induction m with
  | nil => simp [GoMap.set, GoMap.keys]
  | cons e m ih =>
      obtain ⟨k0, v0⟩ := e
      simp only [GoMap.keys, List.map_cons, List.nodup_cons] at h
      by_cases h0 : k0 = k
      · simp only [GoMap.set, h0, if_true, GoMap.keys, List.map_cons, List.nodup_cons]
        exact ⟨h0 ▸ h.1, h.2⟩
      · simp only [GoMap.set, h0, if_false, GoMap.keys, List.map_cons, List.nodup_cons]
        refine ⟨?_, ih h.2⟩
        intro hmem
        have := (mem_keys_set m k k0 v).mp hmem
        rcases this with h' | h'
        · exact h0 h'
        · exact h.1 h'

theorem nodup_keys_foldl_set {α V : Type} (key : α → String) (val : α → V) :
    ∀ (items : List α) (acc : GoMap V), (GoMap.keys acc).Nodup →
      (GoMap.keys (items.foldl (fun m x => m.set (key x) (val x)) acc)).Nodup
  | [], _, h => h
  | x :: items, acc, h => by
      rw [List.foldl_cons]
      exact nodup_keys_foldl_set key val items _ (nodup_keys_set acc _ _ h)

theorem get?_eq_none_of_not_mem {V : Type} (m : GoMap V) (k : String)
    (h : k ∉ GoMap.keys m) : m.get? k = none := by
  have := (GoMap.mem_keys_iff m k).not.mp h
  simpa using this

theorem get?_mergeInto_of_mem {V : Type} :
    ∀ (l : List (String × V)) (all : GoMap V) (k : String),
      (GoMap.keys l).Nodup → k ∈ GoMap.keys l → (mergeInto l all).get? k = GoMap.get? l k
  | [], _, _, _, h => by simp [GoMap.keys] at h
  | (k0, v0) :: rest, all, k, hnd, hk => by
      simp only [GoMap.keys, List.map_cons, List.nodup_cons] at hnd
      simp only [mergeInto, GoMap.get?]
      by_cases h0 : k0 = k
      · subst h0
        simp only [if_true]
        have hnot : k0 ∉ GoMap.keys rest := hnd.1
        have : ∀ (l : List (String × V)) (all : GoMap V), k0 ∉ GoMap.keys l →
            (mergeInto l all).get? k0 = all.get? k0 := by
          intro l
          induction l with
          | nil => intro all _; rfl
          | cons e l ih =>
              intro all hl
              obtain ⟨k1, v1⟩ := e
              simp only [GoMap.keys, List.map_cons, List.mem_cons, not_or] at hl
              have hne : ¬ k1 = k0 := fun h => hl.1 h.symm
              simp only [mergeInto]
              rw [ih _ (by simpa [GoMap.keys] using hl.2), GoMap.get?_set]
              simp [hne]
        rw [this rest _ hnot, GoMap.get?_set]
        simp
      · simp only [h0, if_false]
        have hk' : k ∈ GoMap.keys rest := by
          simp only [GoMap.keys, List.map_cons, List.mem_cons] at hk
          rcases hk with h | h
          · exact absurd h.symm h0
          · exact h
        exact get?_mergeInto_of_mem rest _ k hnd.2 hk'

theorem listAccounts_fst (managementAccountID : String) :
    ∀ (accountsList : List types.Account) (accounts : GoMap Account) (m : Option Account),
      (listAccounts managementAccountID accountsList accounts m).1 =
        accountsList.foldl (fun m x => m.set (awsToString x.Name) (toAccount x)) accounts
  | [], _, _ => rfl
  | x :: rest, accounts, m => by
      simp only [listAccounts, List.foldl_cons]
      exact listAccounts_fst managementAccountID rest _ _

theorem mem_keys_keyByName (listed : List types.Account) (x : types.Account)
    (hx : x ∈ listed) : awsToString x.Name ∈ GoMap.keys (keyByName listed) := by
  rw [GoMap.mem_keys_iff, keyByName,
    foldl_set_get? (fun x : types.Account => awsToString x.Name) toAccount listed []]
  cases hfind : listed.reverse.find?
      (fun y => decide (awsToString y.Name = awsToString x.Name)) with
  | some y => simp
  | none =>
      have := List.find?_eq_none.mp hfind x (List.mem_reverse.mpr hx)
      simp at this

theorem rolledUpUnits_iff (a : AWSOrgTreeProvider) (id : Option String) :
    ∀ l : List (String × OrgUnit), RolledUpUnits a l id ↔
      ∀ e ∈ l, ∃ children child resp,
        paginate (a.org.ListChildren id) = .ok children ∧ child ∈ children ∧
        a.org.DescribeOrganizationalUnit child.Id = .ok resp ∧
        e.1 = awsToString resp.Name ∧ e.2.Name = awsToString resp.Name ∧
        e.2.ID = awsToString resp.Id ∧ RolledUpOU a e.2 child.Id
  | [] => by simp [RolledUpUnits]
  | (k, ou) :: rest => by
      simp only [RolledUpUnits, List.mem_cons, forall_eq_or_imp, rolledUpUnits_iff a id rest]

theorem mem_set {V : Type} (m : GoMap V) (k : String) (v : V) (e : String × V)
    (h : e ∈ m.set k v) : e = (k, v) ∨ e ∈ m := by
  induction m with
  | nil =>
      simp only [GoMap.set, List.mem_singleton] at h
      exact Or.inl h
  | cons e0 m ih =>
      obtain ⟨k0, v0⟩ := e0
      by_cases h0 : k0 = k
      · simp only [GoMap.set, h0, if_true, List.mem_cons] at h
        rcases h with h | h
        · exact Or.inl h
        · exact Or.inr (List.mem_cons_of_mem _ h)
      · simp only [GoMap.set, h0, if_false, List.mem_cons] at h
        rcases h with h | h
        · exact Or.inr (h ▸ List.mem_cons_self _ _)
        · rcases ih h with h' | h'
          · exact Or.inl h'
          · exact Or.inr (List.mem_cons_of_mem _ h')

theorem childWrites_mem :
    ∀ (runs : List ChildRun) (init : GoMap OrgUnit) (e : String × OrgUnit),
      e ∈ childWrites runs init → e ∈ init ∨ ∃ run ∈ runs, run.write = some e
  | [], _, _, h => Or.inl h
  | run :: rest, init, e, h => by
      simp only [childWrites] at h
      split at h
      · rename_i name ou hw
        rcases childWrites_mem rest _ e h with h' | ⟨run', hr', hw'⟩
        · rcases mem_set _ _ _ _ h' with h'' | h''
          · exact Or.inr ⟨run, List.mem_cons_self _ _, by rw [hw, h'']⟩
          · exact Or.inl h''
        · exact Or.inr ⟨run', List.mem_cons_of_mem _ hr', hw'⟩
      · rcases childWrites_mem rest _ e h with h' | ⟨run', hr', hw'⟩
        · exact Or.inl h'
        · exact Or.inr ⟨run', List.mem_cons_of_mem _ hr', hw'⟩

theorem all_one_of_sum_le {α : Type} (f : α → Nat) :
    ∀ l : List α, (∀ x ∈ l, 1 ≤ f x) → (l.map f).sum ≤ l.length → ∀ x ∈ l, f x = 1
  | [], _, _ => by simp
  | y :: l, hge, hsum => by
      have hy := hge y (List.mem_cons_self _ _)
      have hl : ∀ x ∈ l, 1 ≤ f x := fun x hx => hge x (List.mem_cons_of_mem _ hx)
      have hlen : l.length ≤ (l.map f).sum := by
        clear hsum hge hy
        induction l with
        | nil => simp
        | cons z l ih =>
            have hz := hl z (List.mem_cons_self _ _)
            have := ih (fun x hx => hl x (List.mem_cons_of_mem _ hx))
            simp only [List.map_cons, List.sum_cons, List.length_cons]
            omega
      simp only [List.map_cons, List.sum_cons, List.length_cons] at hsum
      have ih := all_one_of_sum_le f l hl (by omega)
      intro x hx
      rcases List.mem_cons.mp hx with rfl | hx
      · omega
      · exact ih x hx

theorem waitChildren_returned (capacity : Nat) (runs : List ChildRun)
    (orgUnits : GoMap OrgUnit) (received : List OrgUnitAccountResponse)
    (h : waitChildren capacity runs = .returned (orgUnits, received)) :
    (∀ run ∈ runs, run.fate = .done) ∧
    (runs.map fun run => run.sends.length).sum ≤ capacity := by
  unfold waitChildren at h
  split at h; · cases h
  rename_i h1
  split at h; · cases h
  rename_i h2
  split at h; · cases h
  rename_i h3
  split at h; · cases h
  rename_i h4
  refine ⟨?_, by omega⟩
  intro run hrun
  simp only [List.any_eq_true, decide_eq_true_eq, not_exists, not_and] at h1 h2 h3
  have := h1 run hrun
  have := h2 run hrun
  have := h3 run hrun
  cases hf : run.fate <;> simp_all

theorem childGoroutine_done
    (walk : Option String → List String → Outcome (Call WalkResult))
    (a : AWSOrgTreeProvider) (child : types.Child) (OU : List String)
    (h : (childGoroutine walk a child OU).fate = .done) :
    (∃ (resp : types.OrganizationalUnit) (r : WalkResult),
      a.org.DescribeOrganizationalUnit child.Id = .ok resp ∧
      walk child.Id (OU ++ [awsToString resp.Name]) = .returned (.ok r) ∧
      (childGoroutine walk a child OU).sends = [⟨none, r.2.1, r.1, r.2.2⟩] ∧
      (childGoroutine walk a child OU).write =
        some (awsToString resp.Name,
          .mk (awsToString resp.Name) (awsToString resp.Id) [] r.1 r.2.1)) ∨
    (childGoroutine walk a child OU).sends.length = 2 := by
  unfold childGoroutine at h ⊢
  split at h
  · cases h
  · rename_i resp hresp
    split at h
    · rename_i childOrgUnits childAccounts childManagementAccount hw
      left
      exact ⟨resp, (childOrgUnits, childAccounts, childManagementAccount), hresp, hw,
        by simp [hw]⟩
    · rename_i err hw
      right
      simp [hw]
    all_goals cases h

theorem gather_keys :
    ∀ (received : List OrgUnitAccountResponse) (g g' : Gathered),
      gather received g = .ok g' →
      (∀ k ∈ GoMap.keys g.allAccount, k ∈ GoMap.keys g'.allAccount) ∧
      ∀ r ∈ received, ∀ k ∈ GoMap.keys r.accounts, k ∈ GoMap.keys g'.allAccount
  | [], g, g', h => by
      simp only [gather, Except.ok.injEq] at h
      subst h
      simp
  | r :: rest, g, g', h => by
      simp only [gather] at h
      split at h
      · cases h
      · obtain ⟨h1, h2⟩ := gather_keys rest _ g' h
        dsimp only at h1
        refine ⟨fun k hk => h1 k ((mem_keys_mergeInto _ _ _).mpr (Or.inl hk)), ?_⟩
        intro r' hr' k hk
        rcases List.mem_cons.mp hr' with rfl | hr'
        · exact h1 k ((mem_keys_mergeInto _ _ _).mpr (Or.inr hk))
        · exact h2 r' hr' k hk

theorem walkOUTree_rolledUp (a : AWSOrgTreeProvider) (s : Schedule) :
    ∀ (fuel : Nat) (parentID : Option String) (orgId managementAccountID : String)
      (OU : List String) (r : WalkResult),
      walkOUTree a s fuel parentID orgId managementAccountID OU = .returned (.ok r) →
      HoldsListed a parentID r.2.1 ∧
      (∀ e ∈ r.1, ∀ k ∈ GoMap.keys e.2.Accounts, k ∈ GoMap.keys r.2.1) ∧
      RolledUpUnits a r.1 parentID
  | 0, _, _, _, _, _, h => by simp [walkOUTree] at h
  | fuel + 1, parentID, orgId, managementAccountID, OU, r, h => by
      simp only [walkOUTree] at h
      split at h; · cases h
      rename_i children hchildren
      split at h
      any_goals cases h
      rename_i orgUnits received hwait
      split at h; · cases h
      rename_i g hg
      cases hpag : paginate (a.org.ListAccountsForParent parentID) with
      | error err => simp [accountsGoroutine, hpag] at h
      | ok listed =>
      simp only [accountsGoroutine, hpag, Outcome.returned.injEq, Except.ok.injEq] at h
      subst h
      dsimp only
      rw [listAccounts_fst]
      -- every child goroutine has sent exactly once
      obtain ⟨hdone, hsum⟩ := waitChildren_returned _ _ _ _ hwait
      obtain ⟨hous, hrec⟩ := waitChildren_received _ _ _ _ hwait
      have hlen : ((s.order parentID children).map fun child =>
          childGoroutine
            (fun id childOU => walkOUTree a s fuel id orgId managementAccountID childOU)
            a child OU).length = children.length := by
        rw [List.length_map]
        exact (s.perm parentID children).length_eq
      have hge : ∀ run ∈ (s.order parentID children).map (fun child =>
          childGoroutine
            (fun id childOU => walkOUTree a s fuel id orgId managementAccountID childOU)
            a child OU), 1 ≤ run.sends.length := by
        intro run hrun
        obtain ⟨child, _, rfl⟩ := List.mem_map.mp hrun
        rcases childGoroutine_done _ a child OU (hdone _ hrun) with ⟨_, _, _, _, hs, _⟩ | hs
        · rw [hs]; simp
        · omega
      have hone := all_one_of_sum_le (fun run : ChildRun => run.sends.length) _ hge
        (by rw [hlen]; exact hsum)
      have hrun : ∀ run ∈ (s.order parentID children).map (fun child =>
          childGoroutine
            (fun id childOU => walkOUTree a s fuel id orgId managementAccountID childOU)
            a child OU),
          ∀ e, run.write = some e →
            (∃ child resp, child ∈ children ∧
              a.org.DescribeOrganizationalUnit child.Id = .ok resp ∧
              e.1 = awsToString resp.Name ∧ e.2.Name = awsToString resp.Name ∧
              e.2.ID = awsToString resp.Id ∧ RolledUpOU a e.2 child.Id) ∧
            ∃ msg ∈ run.sends, msg.accounts = e.2.Accounts := by
        intro run hrun e he
        obtain ⟨child, hchild, rfl⟩ := List.mem_map.mp hrun
        rcases childGoroutine_done _ a child OU (hdone _ hrun) with
          ⟨resp, r', hdesc, hw, hs, hwr⟩ | hs
        · rw [hwr] at he
          cases he
          obtain ⟨h1, h2, h3⟩ := walkOUTree_rolledUp a s fuel _ _ _ _ r' hw
          refine ⟨⟨child, resp, (s.perm parentID children).mem_iff.mp hchild, hdesc, rfl, rfl,
            rfl, ?_⟩, ?_⟩
          · simp only [RolledUpOU]
            exact ⟨h1, h2, h3⟩
          · rw [hs]
            exact ⟨_, List.mem_singleton.mpr rfl, rfl⟩
        · have := hone _ hrun
          dsimp only at this
          omega
      have htake : received.take children.length = received := by
        apply List.take_of_length_le
        rw [hrec, List.length_flatten, List.map_map]
        exact hsum
      rw [htake] at hg
      obtain ⟨_, hkeys⟩ := gather_keys _ _ g hg
      refine ⟨?_, ?_, ?_⟩
      · refine ⟨listed, hpag, ?_⟩
        intro x hx
        have hnd : (GoMap.keys (keyByName listed)).Nodup :=
          nodup_keys_foldl_set _ _ listed [] (by simp [GoMap.keys])
        exact get?_mergeInto_of_mem (keyByName listed) g.allAccount _ hnd
          (mem_keys_keyByName listed x hx)
      · intro e he k hk
        rw [hous] at he
        rcases childWrites_mem _ _ e he with h0 | ⟨run, hr, hw⟩
        · simp at h0
        · obtain ⟨_, msg, hmsg, hacc⟩ := hrun run hr e hw
          apply (mem_keys_mergeInto _ _ _).mpr
          left
          apply hkeys msg
          · rw [hrec]
            exact List.mem_flatten.mpr ⟨run.sends, List.mem_map.mpr ⟨run, hr, rfl⟩, hmsg⟩
          · rw [hacc]; exact hk
      · rw [rolledUpUnits_iff]
        intro e he
        rw [hous] at he
        rcases childWrites_mem _ _ e he with h0 | ⟨run, hr, hw⟩
        · simp at h0
        · obtain ⟨⟨child, resp, hc, hdesc, h1, h2, h3, h4⟩, _⟩ := hrun run hr e hw
          exact ⟨children, child, resp, hchildren, hc, hdesc, h1, h2, h3, h4⟩

theorem rootsLoop_rolledUp (a : AWSOrgTreeProvider) (s : Schedule) (fuel : Nat)
    (orgId managementAccountID : String) (allRoots : List types.Root)
    (hall : paginate a.org.ListRoots = .ok allRoots) :
    ∀ (roots : List types.Root) (tree tree' : OrgTree),
      (∀ root ∈ roots, root ∈ allRoots) →
      RolledUp a tree.OrgUnits →
      rootsLoop a s fuel orgId managementAccountID roots tree = .returned (.ok tree') →
      RolledUp a tree'.OrgUnits
  | [], tree, tree', _, ht, h => by
      simp only [rootsLoop, Outcome.returned.injEq, Except.ok.injEq] at h
      subst h
      exact ht
  | root :: rest, tree, tree', hsub, ht, h => by
      simp only [rootsLoop] at h
      split at h
      any_goals cases h
      rename_i orgUnits accounts managementAccount hwalk
      refine rootsLoop_rolledUp a s fuel orgId managementAccountID allRoots hall rest _ tree'
        (fun r hr => hsub r (List.mem_cons_of_mem _ hr)) ?_ h
      obtain ⟨h1, h2, h3⟩ := walkOUTree_rolledUp a s fuel _ _ _ _ _ hwalk
      dsimp only
      intro e he
      rcases mem_set _ _ _ _ he with rfl | he'
      · refine ⟨allRoots, root, hall, hsub root (List.mem_cons_self _ _), rfl, rfl, rfl, ?_⟩
        simp only [RolledUpOU]
        exact ⟨h1, h2, h3⟩
      · exact ht e he'

theorem keyByName_get? (listed : List types.Account) (name : String) :
    (keyByName listed).get? name =
      (listed.reverse.find? fun x => decide (awsToString x.Name = name)).map toAccount := by
  rw [keyByName,
    foldl_set_get? (fun x : types.Account => awsToString x.Name) toAccount listed [] name]
  cases listed.reverse.find? (fun x => decide (awsToString x.Name = name)) <;> rfl

/-- The predicate `RolledUp` is not satisfied by a tree that leaves out a listed account:
in the worked example the units with empty `Accounts` maps are rejected, because
`Infra` must hold the account `mgmt` listed under it. -/
theorem rolledUp_rejects_hollowUnits : ¬ RolledUp exampleProvider hollowUnits := by
  intro h
  obtain ⟨roots, root, hroots, hroot, _, _, hid, hou⟩ :=
    h ("Root", .mk "Root" "r-root" [] [("Infra", .mk "Infra" "ou-infra" [] [] [])] [])
      (List.mem_singleton.mpr rfl)
  have hr : roots = [⟨some "r-root", some "Root"⟩] := by
    have : paginate exampleProvider.org.ListRoots = .ok [⟨some "r-root", some "Root"⟩] := rfl
    rw [this] at hroots
    cases hroots
    rfl
  subst hr
  simp only [List.mem_singleton] at hroot
  subst hroot
  simp only [RolledUpOU, RolledUpUnits, and_true] at hou
  obtain ⟨_, _, children, child, resp, hchildren, hchild, _, _, _, _, hlisted, _⟩ := hou
  have hc : children = [⟨some "ou-infra"⟩] := by
    have : paginate (exampleProvider.org.ListChildren (some "r-root")) =
        .ok [⟨some "ou-infra"⟩] := rfl
    rw [this] at hchildren
    cases hchildren
    rfl
  subst hc
  simp only [List.mem_singleton] at hchild
  subst hchild
  obtain ⟨listed, hl, hheld⟩ := hlisted
  have hl' : listed = [⟨some "111111111111", some "mgmt", some "mgmt@example.com", .ACTIVE⟩] := by
    have : paginate (exampleProvider.org.ListAccountsForParent (some "ou-infra")) =
        .ok [⟨some "111111111111", some "mgmt", some "mgmt@example.com", .ACTIVE⟩] := rfl
    rw [this] at hl
    cases hl
    rfl
  subst hl'
  have := hheld _ (List.mem_singleton.mpr rfl)
  simp [GoMap.get?, keyByName, GoMap.set, awsToString] at this

/-- C2 (fails on the code): in the worked example `ListAccountsForParent` lists nothing
directly under `Root`, yet the `Accounts` map of `Root` holds `mgmt`, the account of
its child unit `Infra`; the account, listed under one parent only, is held by two
units of the tree. -/
theorem getOrgTree_parent_holds_child_accounts :
    exampleProvider.getOrgTree Schedule.fifo 2 = Outcome.returned (.ok exampleUntaggedTree) ∧
    paginate (exampleProvider.org.ListAccountsForParent (some "r-root")) = .ok [] ∧
    ((exampleUntaggedTree.OrgUnits.get? "Root").map fun r => GoMap.keys r.Accounts) =
      some ["mgmt"] ∧
    holderPaths exampleUntaggedTree.OrgUnits "mgmt" [] = [["Root"], ["Root", "Infra"]] := by
  refine ⟨rfl, rfl, ?_, ?_⟩ <;> decide

/-- C2 (as amended): in every tree `getOrgTree` returns, every root-level unit is a listed
root and every unit below is a listed and described child of its parent, and every
unit, at every depth, holds in its `Accounts` map, keyed by name, the accounts that
`ListAccountsForParent` lists directly under that very unit and, besides, an entry
for every account name held by each of its child units: the accounts of descendant
units are rolled up into every ancestor. -/
theorem getOrgTree_accounts_rolled_up (a : AWSOrgTreeProvider) (s : Schedule) (fuel : Nat)
    (tree : OrgTree) (h : a.getOrgTree s fuel = Outcome.returned (.ok tree)) :
    RolledUp a tree.OrgUnits := by
  unfold AWSOrgTreeProvider.getOrgTree at h
  split at h; · cases h
  rename_i roots hroots
  split at h; · cases h
  exact rootsLoop_rolledUp a s fuel _ _ roots hroots roots _ tree (fun _ hr => hr)
    (by intro e he; simp at he) h

/-- C2 (as amended), at the worked example. -/
theorem getOrgTree_accounts_rolled_up_witness :
    exampleProvider.getOrgTree Schedule.fifo 2 = Outcome.returned (.ok exampleUntaggedTree) ∧
    RolledUp exampleProvider exampleUntaggedTree.OrgUnits :=
  ⟨rfl, getOrgTree_accounts_rolled_up exampleProvider Schedule.fifo 2 exampleUntaggedTree rfl⟩

/-! ### Flattening and iteration order -/

/-- C9 (fails on the code): `twinTreeSwapped` is `twinTree` with its two root-level units
visited in the other order; two different accounts named `a` are held by different
units, and the two runs of `Accounts()` disagree on the ID of `a`. Likewise
`splitTreeSwapped` is `splitTree` in the other order; equal copies of one account `a`
are held by a root-level unit and by a unit below another one, and the two runs
disagree on the path of `a`. -/
theorem accounts_depend_on_iteration_order :
    (Reordered twinTree.OrgUnits twinTreeSwapped.OrgUnits ∧
      twinTree.AccountsView "a" = some ("222222222222", "a@example.com", true, [], []) ∧
      twinTreeSwapped.AccountsView "a" =
        some ("111111111111", "a@example.com", true, [], [])) ∧
    (Reordered splitTree.OrgUnits splitTreeSwapped.OrgUnits ∧
      splitTree.AccountsView "a" = some ("id-a", "a@example.com", true, [], ["Y"]) ∧
      splitTreeSwapped.AccountsView "a" = some ("id-a", "a@example.com", true, [], [])) := by
  refine ⟨⟨Reordered.swap _ _ _, ?_, ?_⟩, ⟨Reordered.swap _ _ _, ?_, ?_⟩⟩ <;> decide

theorem Frame.refl (st : Store) (p : Slice) : Frame st st p :=
  ⟨Nat.le_refl _, fun _ _ _ _ => rfl⟩

theorem Frame.trans {st st1 st2 : Store} {p : Slice} (h1 : Frame st st1 p)
    (h2 : Frame st1 st2 p) : Frame st st2 p :=
  ⟨Nat.le_trans h1.1 h2.1, fun i hi n hc =>
    (h2.2 i (Nat.lt_of_lt_of_le hi h1.1) n hc).trans (h1.2 i hi n hc)⟩

theorem take_set_of_le {α : Type} (a : α) {n m : Nat} (l : List α) (h : m ≤ n) :
    (l.set n a).take m = l.take m :=
  List.ext_getElem? fun i => by
    rw [List.getElem?_take, List.getElem?_take]
    split
    · rw [List.getElem?_set_ne (by omega)]
    · rfl

/-- A walk below the appended path, seen from the path appended to. -/
theorem goAppend_frame (st : Store) (p : Slice) (x : String) (st2 : Store)
    (h : Frame (goAppend st p x).1 st2 (goAppend st p x).2) : Frame st st2 p := by
  unfold goAppend at h
  by_cases hcap : p.len < p.cap
  · simp only [hcap, if_true] at h
    refine ⟨by simpa using h.1, ?_⟩
    intro i hi n hc
    have hc' : i ≠ p.arr ∨ n ≤ p.len := by
      rcases hc with h' | h' | h'
      · exact Or.inl h'
      · exact Or.inr h'
      · omega
    rw [h.2 i (by simpa using hi) n (by
      rcases hc' with h' | h'
      · exact Or.inl h'
      · exact Or.inr (Or.inl (Nat.le_succ_of_le h')))]
    by_cases hia : i = p.arr
    · subst hia
      have hn : n ≤ p.len := by
        rcases hc' with h' | h'
        · exact absurd rfl h'
        · exact h'
      simp only [List.getD_eq_getElem?_getD, List.getElem?_set_self hi, Option.getD_some]
      exact take_set_of_le x _ hn
    · simp only [List.getD_eq_getElem?_getD]
      rw [List.getElem?_set_ne (fun h' => hia h'.symm)]
  · simp only [hcap, if_false] at h
    refine ⟨?_, ?_⟩
    · have := h.1
      simp only [List.length_append, List.length_singleton] at this
      omega
    · intro i hi n _
      rw [h.2 i (by simp only [List.length_append, List.length_singleton]; omega) n
        (Or.inl (by simp only; omega))]
      simp only [List.getD_eq_getElem?_getD]
      rw [List.getElem?_append_left hi]

mutual
theorem walkAccountsOU_frame :
    ∀ (ou : OrgUnit) (st : Store) (m : GoMap AccountInfo) (p : Slice),
      Frame st (walkAccountsOU ou st m p).1 p
  | .mk name _ _ ous accts, st, m, p => by
      simp only [walkAccountsOU]
      exact goAppend_frame st p name _ (walkAccountsLoop_frame ous _ [] _)
theorem walkAccountsLoop_frame :
    ∀ (ous : List (String × OrgUnit)) (st : Store) (m : GoMap AccountInfo) (p : Slice),
      Frame st (walkAccountsLoop ous st m p).1 p
  | [], st, _, p => by
      simp only [walkAccountsLoop]
      exact Frame.refl st p
  | (_, ou) :: rest, st, m, p => by
      simp only [walkAccountsLoop]
      exact (walkAccountsOU_frame ou st m p).trans (walkAccountsLoop_frame rest _ _ p)
end

theorem keyedByName_set (m : GoMap AccountInfo) (i : AccountInfo) (h : KeyedByName m) :
    KeyedByName (m.set i.Name i) := by
  refine ⟨nodup_keys_set m _ _ h.1, ?_⟩
  intro e he
  rcases mem_set _ _ _ _ he with rfl | he'
  · rfl
  · exact h.2 e he'

theorem keyedByName_foldl {α : Type} (f : α → AccountInfo) :
    ∀ (items : List α) (m : GoMap AccountInfo), KeyedByName m →
      KeyedByName (items.foldl (fun m x => m.set (f x).Name (f x)) m)
  | [], _, h => h
  | x :: items, m, h => by
      rw [List.foldl_cons]
      exact keyedByName_foldl f items _ (keyedByName_set m (f x) h)

mutual
theorem walkAccountsOU_keyed :
    ∀ (ou : OrgUnit) (st : Store) (m : GoMap AccountInfo) (p : Slice),
      KeyedByName m → KeyedByName (walkAccountsOU ou st m p).2
  | .mk name _ _ ous accts, st, m, p, h => by
      simp only [walkAccountsOU]
      exact keyedByName_foldl
        (fun e : String × AccountInfo =>
          mkAccountInfo e.2.Name e.2.ID e.2.Email e.2.Active e.2.Tags (goAppend st p name).2)
        _ _
        (keyedByName_foldl
          (fun e : String × Account =>
            mkAccountInfo e.2.Name e.2.ID e.2.Email e.2.Active e.2.Tags p) accts m h)
theorem walkAccountsLoop_keyed :
    ∀ (ous : List (String × OrgUnit)) (st : Store) (m : GoMap AccountInfo) (p : Slice),
      KeyedByName m → KeyedByName (walkAccountsLoop ous st m p).2
  | [], _, _, _, h => by
      simpa only [walkAccountsLoop] using h
  | (_, ou) :: rest, st, m, p, h => by
      simp only [walkAccountsLoop]
      exact walkAccountsLoop_keyed rest _ _ p (walkAccountsOU_keyed ou st m p h)
end

theorem get?_of_mem {V : Type} :
    ∀ (m : GoMap V) (k : String) (v : V), (GoMap.keys m).Nodup → (k, v) ∈ m →
      m.get? k = some v
  | [], _, _, _, h => by simp at h
  | (k0, v0) :: m, k, v, hnd, h => by
      simp only [GoMap.keys, List.map_cons, List.nodup_cons] at hnd
      rcases List.mem_cons.mp h with h' | h'
      · cases h'
        simp [GoMap.get?]
      · have hne : ¬ k0 = k := by
          intro heq
          subst heq
          exact hnd.1 (List.mem_map.mpr ⟨(k0, v), h', rfl⟩)
        simp only [GoMap.get?, hne, if_false]
        exact get?_of_mem m k v hnd.2 h'

theorem reverse_find?_keyed (m : GoMap AccountInfo) (n : String) (h : KeyedByName m) :
    m.reverse.find? (fun e => decide (e.2.Name = n)) = (m.get? n).map fun v => (n, v) := by
  cases hfind : m.reverse.find? (fun e => decide (e.2.Name = n)) with
  | some e =>
      have hmem := List.mem_reverse.mp (List.mem_of_find?_eq_some hfind)
      have hp : e.2.Name = n := by simpa using List.find?_some hfind
      have hk : e.1 = n := (h.2 e hmem).trans hp
      obtain ⟨k, v⟩ := e
      simp only at hk
      subst hk
      rw [get?_of_mem m k v h.1 hmem]
      rfl
  | none =>
      have hnot : n ∉ GoMap.keys m := by
        intro hn
        obtain ⟨e, he, hk⟩ := List.mem_map.mp hn
        have := List.find?_eq_none.mp hfind e (List.mem_reverse.mpr he)
        simp only [decide_eq_true_eq] at this
        exact this ((h.2 e he).symm.trans hk)
      rw [get?_eq_none_of_not_mem m n hnot]
      rfl

/-- What one iteration of the outer loop of `walkAccounts` leaves under a name: the
last account below the unit with that name, with the child path; else the last
account of the unit itself with that name, with the parent path; else what was
there. -/
theorem walkAccountsOU_get? (name id : String) (t : List (String × String))
    (ous : List (String × OrgUnit)) (accts : List (String × Account))
    (st : Store) (m : GoMap AccountInfo) (p : Slice) (n : String)
    (H : ∀ (st' : Store) (p' : Slice) (n : String),
      ((walkAccountsLoop ous st' [] p').2.get? n).map AccountInfo.erasePath =
        ((allAccounts ous).reverse.find? fun acc => decide (acc.Name = n)).map
          fun acc => infoOf acc Slice.nil) :
    (walkAccountsOU (.mk name id t ous accts) st m p).2.get? n =
      match (allAccounts ous).reverse.find? fun acc => decide (acc.Name = n) with
      | some acc => some (infoOf acc (goAppend st p name).2)
      | none =>
          match accts.reverse.find? fun e => decide (e.2.Name = n) with
          | some e => some (infoOf e.2 p)
          | none => m.get? n := by
  simp only [walkAccountsOU]
  rw [foldl_set_get? (fun e : String × AccountInfo => e.2.Name)
    (fun e : String × AccountInfo =>
      mkAccountInfo e.2.Name e.2.ID e.2.Email e.2.Active e.2.Tags (goAppend st p name).2)]
  rw [reverse_find?_keyed _ n
    (walkAccountsLoop_keyed ous _ [] _ ⟨by simp [GoMap.keys], by simp⟩)]
  have hsub := H (goAppend st p name).1 (goAppend st p name).2 n
  cases hget : (walkAccountsLoop ous (goAppend st p name).1 [] (goAppend st p name).2).2.get? n with
  | some i =>
      rw [hget] at hsub
      cases hfind : (allAccounts ous).reverse.find? (fun acc => decide (acc.Name = n)) with
      | none => rw [hfind] at hsub; simp at hsub
      | some acc =>
          rw [hfind] at hsub
          simp only [Option.map_some', Option.some.injEq] at hsub
          simp only [Option.map_some', infoOf]
          have h1 : i.Name = acc.Name := by
            have := congrArg AccountInfo.Name hsub
            simpa [AccountInfo.erasePath, infoOf, mkAccountInfo] using this
          have h2 : i.ID = acc.ID := by
            have := congrArg AccountInfo.ID hsub
            simpa [AccountInfo.erasePath, infoOf, mkAccountInfo] using this
          have h3 : i.Email = acc.Email := by
            have := congrArg AccountInfo.Email hsub
            simpa [AccountInfo.erasePath, infoOf, mkAccountInfo] using this
          have h4 : i.Active = acc.Active := by
            have := congrArg AccountInfo.Active hsub
            simpa [AccountInfo.erasePath, infoOf, mkAccountInfo] using this
          have h5 : i.Tags = acc.Tags := by
            have := congrArg AccountInfo.Tags hsub
            simpa [AccountInfo.erasePath, infoOf, mkAccountInfo] using this
          rw [h1, h2, h3, h4, h5]
  | none =>
      rw [hget] at hsub
      cases hfind : (allAccounts ous).reverse.find? (fun acc => decide (acc.Name = n)) with
      | some acc => rw [hfind] at hsub; simp at hsub
      | none =>
          simp only [Option.map_none']
          rw [foldl_set_get? (fun e : String × Account => e.2.Name)
            (fun e : String × Account =>
              mkAccountInfo e.2.Name e.2.ID e.2.Email e.2.Active e.2.Tags p)]
          cases accts.reverse.find? (fun e => decide (e.2.Name = n)) <;> rfl

theorem find?_direct (accts : List (String × Account)) (n : String) :
    (accts.map Prod.snd).reverse.find? (fun acc => decide (acc.Name = n)) =
      (accts.reverse.find? fun e => decide (e.2.Name = n)).map Prod.snd := by
  rw [← List.map_reverse, List.find?_map]
  rfl

mutual
theorem walkAccountsOU_fields :
    ∀ (ou : OrgUnit) (st : Store) (m : GoMap AccountInfo) (p : Slice) (n : String),
      ((walkAccountsOU ou st m p).2.get? n).map AccountInfo.erasePath =
        match (allAccountsOU ou).reverse.find? fun acc => decide (acc.Name = n) with
        | some acc => some (infoOf acc Slice.nil)
        | none => (m.get? n).map AccountInfo.erasePath
  | .mk name id t ous accts, st, m, p, n => by
      rw [walkAccountsOU_get? name id t ous accts st m p n (by
        intro st' p' n'
        rw [walkAccountsLoop_fields ous st' [] p' n']
        cases (allAccounts ous).reverse.find? (fun acc => decide (acc.Name = n')) <;> rfl)]
      simp only [allAccountsOU, List.reverse_append, List.find?_append, find?_direct]
      cases (allAccounts ous).reverse.find? (fun acc => decide (acc.Name = n)) with
      | some acc => rfl
      | none =>
          cases accts.reverse.find? (fun e => decide (e.2.Name = n)) with
          | some e => rfl
          | none => rfl
theorem walkAccountsLoop_fields :
    ∀ (ous : List (String × OrgUnit)) (st : Store) (m : GoMap AccountInfo) (p : Slice)
      (n : String),
      ((walkAccountsLoop ous st m p).2.get? n).map AccountInfo.erasePath =
        match (allAccounts ous).reverse.find? fun acc => decide (acc.Name = n) with
        | some acc => some (infoOf acc Slice.nil)
        | none => (m.get? n).map AccountInfo.erasePath
  | [], _, _, _, _ => by
      simp [walkAccountsLoop, allAccounts]
  | (_, ou) :: rest, st, m, p, n => by
      simp only [walkAccountsLoop, allAccounts, List.reverse_append, List.find?_append]
      rw [walkAccountsLoop_fields rest _ _ p n]
      cases (allAccounts rest).reverse.find? (fun acc => decide (acc.Name = n)) with
      | some acc => rfl
      | none =>
          simp only [Option.none_or]
          exact walkAccountsOU_fields ou st m p n
end

theorem goAppend_nil (st : Store) (name : String) :
    goAppend st Slice.nil name = (st ++ [[name]], ⟨st.length, 1, 1⟩) := by
  simp [goAppend, Slice.nil, growCap, Slice.read]

/-- The path appended for a root-level unit still reads as the name of the unit when
the whole walk is over. -/
theorem childPath_read (name id : String) (t : List (String × String))
    (ous : List (String × OrgUnit)) (accts : List (String × Account))
    (rest : List (String × OrgUnit)) (st : Store) (m m' : GoMap AccountInfo) :
    (goAppend st Slice.nil name).2.read
      (walkAccountsLoop rest
        (walkAccountsOU (.mk name id t ous accts) st m Slice.nil).1 m' Slice.nil).1 = [name] := by
  have F2 := walkAccountsLoop_frame rest
    (walkAccountsOU (.mk name id t ous accts) st m Slice.nil).1 m' Slice.nil
  have F1 := walkAccountsLoop_frame ous (goAppend st Slice.nil name).1 []
    (goAppend st Slice.nil name).2
  have hst : (walkAccountsOU (.mk name id t ous accts) st m Slice.nil).1 =
      (walkAccountsLoop ous (goAppend st Slice.nil name).1 []
        (goAppend st Slice.nil name).2).1 := by
    simp only [walkAccountsOU]
  rw [hst] at F2 ⊢
  rw [goAppend_nil] at F1 F2 ⊢
  have hlt : st.length < (st ++ [[name]]).length := by simp
  unfold Slice.read
  simp only
  rw [F2.2 st.length (Nat.lt_of_lt_of_le hlt F1.1) 1 (Or.inr (Or.inr (by simp [Slice.nil]))),
    F1.2 st.length hlt 1 (Or.inr (Or.inl (Nat.le_refl _)))]
  simp

theorem find?_topEntriesOU (name id : String) (t : List (String × String))
    (ous : List (String × OrgUnit)) (accts : List (String × Account)) (n : String) :
    (topEntriesOU (.mk name id t ous accts)).reverse.find? (fun e => decide (e.1.Name = n)) =
      match (allAccounts ous).reverse.find? fun acc => decide (acc.Name = n) with
      | some acc => some (acc, [name])
      | none => (accts.reverse.find? fun e => decide (e.2.Name = n)).map fun e => (e.2, []) := by
  simp only [topEntriesOU, List.reverse_append, List.find?_append, ← List.map_reverse,
    List.find?_map]
  cases h1 : (allAccounts ous).reverse.find? (fun acc => decide (acc.Name = n)) with
  | some acc =>
      have : List.find? ((fun e : Account × List String => decide (e.1.Name = n)) ∘
          fun acc => (acc, [name])) (allAccounts ous).reverse = some acc := h1
      rw [this]
      rfl
  | none =>
      have : List.find? ((fun e : Account × List String => decide (e.1.Name = n)) ∘
          fun acc => (acc, [name])) (allAccounts ous).reverse = none := h1
      rw [this]
      rfl

/-- What the top-level call of `walkAccounts` leaves under a name, as a caller reads
it: the last entry of `topEntries` with that name, else what was there. -/
theorem walkAccountsLoop_top :
    ∀ (ous : List (String × OrgUnit)) (st : Store) (m : GoMap AccountInfo) (n : String),
      ((walkAccountsLoop ous st m Slice.nil).2.get? n).map
          (AccountInfo.view (walkAccountsLoop ous st m Slice.nil).1) =
        match (topEntries ous).reverse.find? fun e => decide (e.1.Name = n) with
        | some e => some (e.1.ID, e.1.Email, e.1.Active, e.1.Tags, e.2)
        | none => (m.get? n).map (AccountInfo.view (walkAccountsLoop ous st m Slice.nil).1)
  | [], st, m, n => by
      simp [walkAccountsLoop, topEntries]
  | (_, .mk name id t ous accts) :: rest, st, m, n => by
      simp only [walkAccountsLoop, topEntries, List.reverse_append, List.find?_append]
      rw [walkAccountsLoop_top rest _ _ n]
      cases (topEntries rest).reverse.find? (fun e => decide (e.1.Name = n)) with
      | some e => rfl
      | none =>
          simp only [Option.none_or]
          rw [find?_topEntriesOU,
            walkAccountsOU_get? name id t ous accts st m Slice.nil n (by
              intro st' p' n'
              rw [walkAccountsLoop_fields ous st' [] p' n']
              cases (allAccounts ous).reverse.find? (fun acc => decide (acc.Name = n')) <;> rfl)]
          cases (allAccounts ous).reverse.find? (fun acc => decide (acc.Name = n)) with
          | some acc =>
              simp only [Option.map_some', AccountInfo.view, infoOf, mkAccountInfo]
              rw [childPath_read]
          | none =>
              cases accts.reverse.find? (fun e => decide (e.2.Name = n)) with
              | some e =>
                  simp [AccountInfo.view, infoOf, mkAccountInfo, Slice.read, Slice.nil]
              | none => rfl

/-- What `Accounts()` shows under a name, for every tree: the last account of that name
in iteration order, with the empty path when a root-level unit holds it itself and
with the name of the root-level unit alone when a unit below holds it. -/
theorem AccountsView_eq (t : OrgTree) (n : String) :
    t.AccountsView n =
      ((topEntries t.OrgUnits).reverse.find? fun e => decide (e.1.Name = n)).map
        fun e => (e.1.ID, e.1.Email, e.1.Active, e.1.Tags, e.2) := by
  unfold OrgTree.AccountsView OrgTree.Accounts walkAccounts
  rw [walkAccountsLoop_top]
  cases (topEntries t.OrgUnits).reverse.find? (fun e => decide (e.1.Name = n)) <;> rfl

theorem reordered_allAccounts {l l' : List (String × OrgUnit)} (h : Reordered l l') :
    (allAccounts l).Perm (allAccounts l') := by
  induction h with
  | refl l => exact List.Perm.refl _
  | cons k name id t _ hacc _ ihous ihl =>
      simp only [allAccounts, allAccountsOU]
      exact ((hacc.map Prod.snd).append ihous).append ihl
  | swap x y l =>
      simp only [allAccounts]
      exact List.perm_append_comm_assoc _ _ _
  | trans _ _ ih1 ih2 => exact ih1.trans ih2

theorem reordered_topEntries {l l' : List (String × OrgUnit)} (h : Reordered l l') :
    (topEntries l).Perm (topEntries l') := by
  induction h with
  | refl l => exact List.Perm.refl _
  | cons k name id t hous hacc _ _ ihl =>
      simp only [topEntries, topEntriesOU]
      exact ((hacc.map _).append ((reordered_allAccounts hous).map _)).append ihl
  | swap x y l =>
      simp only [topEntries]
      exact List.perm_append_comm_assoc _ _ _
  | trans _ _ ih1 ih2 => exact ih1.trans ih2

theorem map_fst_topEntries :
    ∀ l : List (String × OrgUnit), (topEntries l).map Prod.fst = allAccounts l
  | [] => rfl
  | (_, .mk name id t ous accts) :: rest => by
      simp only [topEntries, topEntriesOU, allAccounts, allAccountsOU, List.map_append,
        List.map_map, map_fst_topEntries rest]
      congr 2
      simp [Function.comp_def]

/-- Looking up the last element with a given key does not depend on the order of a
list in which elements with the same key are equal. -/
theorem find?_reverse_perm {α : Type} (key : α → String) (n : String) {l l' : List α}
    (hp : l.Perm l') (hsame : ∀ x ∈ l, ∀ y ∈ l, key x = key y → x = y) :
    l.reverse.find? (fun e => decide (key e = n)) =
      l'.reverse.find? (fun e => decide (key e = n)) := by
  cases hfind : l.reverse.find? (fun e => decide (key e = n)) with
  | some x =>
      have hmem := List.mem_reverse.mp (List.mem_of_find?_eq_some hfind)
      have hk : key x = n := by simpa using List.find?_some hfind
      cases hfind' : l'.reverse.find? (fun e => decide (key e = n)) with
      | some y =>
          have hmem' := hp.mem_iff.mpr (List.mem_reverse.mp (List.mem_of_find?_eq_some hfind'))
          have hk' : key y = n := by simpa using List.find?_some hfind'
          rw [hsame x hmem y hmem' (hk.trans hk'.symm)]
      | none =>
          have := List.find?_eq_none.mp hfind' x
            (List.mem_reverse.mpr (hp.mem_iff.mp hmem))
          simp [hk] at this
  | none =>
      symm
      rw [List.find?_eq_none]
      intro x hx
      exact List.find?_eq_none.mp hfind x
        (List.mem_reverse.mpr (hp.mem_iff.mpr (List.mem_reverse.mp hx)))

theorem find?_filter_of_imp {α : Type} (p q : α → Bool) :
    ∀ l : List α, (∀ x ∈ l, q x = true → p x = true) → (l.filter p).find? q = l.find? q
  | [], _ => rfl
  | x :: l, h => by
      have ih := find?_filter_of_imp p q l (fun y hy => h y (List.mem_cons_of_mem _ hy))
      cases hp : p x with
      | true =>
          simp only [List.filter_cons, hp, if_true, List.find?_cons]
          rw [ih]
      | false =>
          have hq : q x = false := by
            cases hq : q x with
            | false => rfl
            | true => rw [h x (List.mem_cons_self _ _) hq] at hp; cases hp
          simp only [List.filter_cons, hp, List.find?_cons, hq]
          simpa using ih

/-- Under a name, the last entry `Accounts()` can show is the last entry it writes. -/
theorem find?_shownEntriesOU (ou : OrgUnit) (n : String) :
    (shownEntriesOU ou).reverse.find? (fun e => decide (e.1.Name = n)) =
      (topEntriesOU ou).reverse.find? (fun e => decide (e.1.Name = n)) := by
  cases ou with
  | mk name id t ous accts =>
      simp only [shownEntriesOU, topEntriesOU, List.reverse_append, List.find?_append]
      cases hnested : ((allAccounts ous).map fun acc => (acc, [name])).reverse.find?
          (fun e => decide (e.1.Name = n)) with
      | some e => rfl
      | none =>
          simp only [Option.none_or]
          rw [← List.filter_reverse]
          apply find?_filter_of_imp
          intro e _ he
          simp only [decide_eq_true_eq] at he ⊢
          intro hmem
          obtain ⟨b, hb, hbn⟩ := List.mem_map.mp hmem
          have := List.find?_eq_none.mp hnested (b, [name])
            (List.mem_reverse.mpr (List.mem_map.mpr ⟨b, hb, rfl⟩))
          simp only [decide_eq_true_eq] at this
          exact this (hbn.trans he)

theorem find?_shownEntries (n : String) :
    ∀ l : List (String × OrgUnit),
      (shownEntries l).reverse.find? (fun e => decide (e.1.Name = n)) =
        (topEntries l).reverse.find? (fun e => decide (e.1.Name = n))
  | [] => rfl
  | (_, ou) :: rest => by
      simp only [shownEntries, topEntries, List.reverse_append, List.find?_append,
        find?_shownEntries n rest, find?_shownEntriesOU ou n]

theorem reordered_shownEntries {l l' : List (String × OrgUnit)} (h : Reordered l l') :
    (shownEntries l).Perm (shownEntries l') := by
  induction h with
  | refl l => exact List.Perm.refl _
  | @cons k name id t ous ous' accts accts' _ _ hous hacc _ _ ihl =>
      simp only [shownEntries, shownEntriesOU]
      have hnested := reordered_allAccounts hous
      have hq : ∀ e ∈ accts'.map (fun e => (e.2, ([] : List String))),
          decide (e.1.Name ∉ (allAccounts ous).map fun b => b.Name) =
            decide (e.1.Name ∉ (allAccounts ous').map fun b => b.Name) := by
        intro e _
        have : e.1.Name ∈ (allAccounts ous).map (fun b => b.Name) ↔
            e.1.Name ∈ (allAccounts ous').map (fun b => b.Name) :=
          (hnested.map _).mem_iff
        simp only [this]
      refine List.Perm.append (List.Perm.append ?_ (hnested.map _)) ihl
      rw [← List.filter_congr hq]
      exact (hacc.map _).filter _
  | swap x y l =>
      simp only [shownEntries]
      exact List.perm_append_comm_assoc _ _ _
  | trans _ _ ih1 ih2 => exact ih1.trans ih2

/-- C9 (as amended): when the accounts of one name that `Accounts()` can show are equal
copies of a single account with a single path, two runs of `Accounts()` that visit
the units and accounts of every map in different orders return equal maps: the same
descriptor, with the same path, under every name. The condition holds of the
rolled-up copies of an account in its ancestors; it fails only when two different
accounts share a name, or when copies of an account get different paths. -/
theorem accounts_order_independent (t t' : OrgTree)
    (horder : Reordered t.OrgUnits t'.OrgUnits)
    (hsame : ∀ e₁ ∈ shownEntries t.OrgUnits, ∀ e₂ ∈ shownEntries t.OrgUnits,
      e₁.1.Name = e₂.1.Name → e₁ = e₂)
    (name : String) :
    t.AccountsView name = t'.AccountsView name := by
  rw [AccountsView_eq, AccountsView_eq, ← find?_shownEntries, ← find?_shownEntries,
    find?_reverse_perm (fun e : Account × List String => e.1.Name) name
      (reordered_shownEntries horder) hsame]

/-- C9 (as amended), at an instance: `rolledTree` holds rolled-up copies of its accounts,
and `rolledTreeSwapped` visits its child units and the accounts of `Root` in the
other order. -/
theorem accounts_order_independent_witness :
    Reordered rolledTree.OrgUnits rolledTreeSwapped.OrgUnits ∧
    (∀ e₁ ∈ shownEntries rolledTree.OrgUnits, ∀ e₂ ∈ shownEntries rolledTree.OrgUnits,
      e₁.1.Name = e₂.1.Name → e₁ = e₂) ∧
    rolledTree.AccountsView "run" = rolledTreeSwapped.AccountsView "run" ∧
    rolledTree.AccountsView "run" =
      some ("id-run", "run@example.com", true, [], ["Root"]) :=
  have horder : Reordered rolledTree.OrgUnits rolledTreeSwapped.OrgUnits :=
    Reordered.cons "Root" "Root" "ou-Root" []
      (Reordered.swap _ _ _) (List.Perm.swap _ _ _) (Reordered.refl [])
  have hsame : ∀ e₁ ∈ shownEntries rolledTree.OrgUnits,
      ∀ e₂ ∈ shownEntries rolledTree.OrgUnits, e₁.1.Name = e₂.1.Name → e₁ = e₂ := by
    decide
  ⟨horder, hsame, accounts_order_independent rolledTree rolledTreeSwapped horder hsame "run",
    by decide⟩

/-- The condition of `accounts_order_independent` holds of the trees `getOrgTree` and
`OrgTree` return in the worked example, where `Root` holds a rolled-up copy of the
account of `Infra`. -/
theorem shownEntries_same_example :
    (∀ e₁ ∈ shownEntries exampleUntaggedTree.OrgUnits,
      ∀ e₂ ∈ shownEntries exampleUntaggedTree.OrgUnits, e₁.1.Name = e₂.1.Name → e₁ = e₂) ∧
    (∀ e₁ ∈ shownEntries exampleTree.OrgUnits,
      ∀ e₂ ∈ shownEntries exampleTree.OrgUnits, e₁.1.Name = e₂.1.Name → e₁ = e₂) := by
  constructor <;> decide

/-- The condition of `accounts_order_independent` holds whenever no two accounts of the
tree, copies included, have the same name. -/
theorem shownEntries_same_of_nodup (l : List (String × OrgUnit))
    (hnames : ((allAccounts l).map fun acc => acc.Name).Nodup) :
    ∀ e₁ ∈ shownEntries l, ∀ e₂ ∈ shownEntries l, e₁.1.Name = e₂.1.Name → e₁ = e₂ := by
  have hsub : ∀ (l : List (String × OrgUnit)) (e : Account × List String),
      e ∈ shownEntries l → e ∈ topEntries l := by
    intro l
    induction l with
    | nil => intro e he; exact he
    | cons x l ih =>
        intro e he
        obtain ⟨k, ou⟩ := x
        cases ou with
        | mk name id t ous accts =>
            simp only [shownEntries, shownEntriesOU, topEntries, topEntriesOU,
              List.mem_append] at he ⊢
            rcases he with (he | he) | he
            · exact Or.inl (Or.inl (List.mem_filter.mp he).1)
            · exact Or.inl (Or.inr he)
            · exact Or.inr (ih e he)
  have hnd : ((topEntries l).map fun e => e.1.Name).Nodup := by
    have : ((topEntries l).map fun e => e.1.Name) =
        ((topEntries l).map Prod.fst).map fun acc => acc.Name := by
      rw [List.map_map]
      rfl
    rw [this, map_fst_topEntries]
    exact hnames
  intro e₁ h₁ e₂ h₂ hn
  exact List.inj_on_of_nodup_map hnd (hsub l e₁ h₁) (hsub l e₂ h₂) hn

/-! ### Failures below the root, under every schedule -/

theorem length_lt_sum_of_mem {α : Type} (f : α → Nat) :
    ∀ l : List α, (∀ x ∈ l, 1 ≤ f x) → (∃ x ∈ l, 2 ≤ f x) → l.length < (l.map f).sum
  | [], _, h => by simp at h
  | y :: l, hge, hex => by
      have hy := hge y (List.mem_cons_self _ _)
      have hl : ∀ x ∈ l, 1 ≤ f x := fun x hx => hge x (List.mem_cons_of_mem _ hx)
      have hlen : l.length ≤ (l.map f).sum := by
        clear hex hge hy
        induction l with
        | nil => simp
        | cons z l ih =>
            have hz := hl z (List.mem_cons_self _ _)
            have := ih (fun x hx => hl x (List.mem_cons_of_mem _ hx))
            simp only [List.map_cons, List.sum_cons, List.length_cons]
            omega
      simp only [List.map_cons, List.sum_cons, List.length_cons]
      obtain ⟨x, hx, h2⟩ := hex
      rcases List.mem_cons.mp hx with rfl | hx'
      · omega
      · have := length_lt_sum_of_mem f l hl ⟨x, hx', h2⟩
        omega

/-- The call `wg.Wait` never returns when every child goroutine runs to its sends and one of
them sends twice. -/
theorem waitChildren_deadlock_of_second_send (runs : List ChildRun)
    (hdone : ∀ run ∈ runs, run.fate = .done ∧ 1 ≤ run.sends.length)
    (htwice : ∃ run ∈ runs, 2 ≤ run.sends.length) :
    waitChildren runs.length runs = .deadlock := by
  have hsum := length_lt_sum_of_mem (fun run : ChildRun => run.sends.length) runs
    (fun run hrun => (hdone run hrun).2) htwice
  unfold waitChildren
  have h1 : (runs.any fun run => decide (run.fate = .outOfFuel)) = false := by
    rw [List.any_eq_false]
    intro run hrun
    simp [(hdone run hrun).1]
  have h2 : (runs.any fun run => decide (run.fate = .panics)) = false := by
    rw [List.any_eq_false]
    intro run hrun
    simp [(hdone run hrun).1]
  have h3 : (runs.any fun run => decide (run.fate = .blocked)) = false := by
    rw [List.any_eq_false]
    intro run hrun
    simp [(hdone run hrun).1]
  simp [h1, h2, h3, hsum]

/-- The call `wg.Wait` never returns when a child goroutine waits for a nested call that never
returns and no goroutine panics. -/
theorem waitChildren_deadlock_of_blocked (capacity : Nat) (runs : List ChildRun)
    (hfate : ∀ run ∈ runs, run.fate = .done ∨ run.fate = .blocked)
    (hblocked : ∃ run ∈ runs, run.fate = .blocked) :
    waitChildren capacity runs = .deadlock := by
  unfold waitChildren
  have h1 : (runs.any fun run => decide (run.fate = .outOfFuel)) = false := by
    rw [List.any_eq_false]
    intro run hrun
    rcases hfate run hrun with h | h <;> simp [h]
  have h2 : (runs.any fun run => decide (run.fate = .panics)) = false := by
    rw [List.any_eq_false]
    intro run hrun
    rcases hfate run hrun with h | h <;> simp [h]
  have h3 : (runs.any fun run => decide (run.fate = .blocked)) = true := by
    rw [List.any_eq_true]
    obtain ⟨run, hrun, h⟩ := hblocked
    exact ⟨run, hrun, by simp [h]⟩
  simp [h1, h2, h3]

/-- A unit without child units whose accounts are listed without error. -/
theorem walkOUTree_leaf (a : AWSOrgTreeProvider) (s : Schedule) (fuel : Nat)
    (parentID : Option String) (orgId managementAccountID : String) (OU : List String)
    (listed : List types.Account)
    (hc : paginate (a.org.ListChildren parentID) = .ok [])
    (ha : paginate (a.org.ListAccountsForParent parentID) = .ok listed) :
    walkOUTree a s (fuel + 1) parentID orgId managementAccountID OU =
      .returned (.ok ([],
        mergeInto (listAccounts managementAccountID listed [] none).1 [],
        (listAccounts managementAccountID listed [] none).2)) := by
  have hs0 : s.order parentID [] = [] := List.perm_nil.mp (s.perm _ _)
  simp only [walkOUTree, hc, hs0, List.map_nil, List.length_nil, waitChildren, List.any_nil,
    Bool.false_eq_true, if_false, List.sum_nil, Nat.lt_irrefl, childWrites, List.flatten_nil,
    List.take_nil, gather, accountsGoroutine, ha]
  cases (listAccounts managementAccountID listed [] none).2 <;> rfl

theorem failing_walk_b (s : Schedule) (fuel : Nat) (OU : List String) :
    walkOUTree failingProvider s (fuel + 1) (some "ou-b") "o-1" "111111111111" OU =
      .returned (.error ⟨"ListChildren: throttled"⟩) := by
  simp [walkOUTree, failingProvider, failingDirectory, paginate]

theorem failing_describe (id : Option String) :
    failingProvider.org.DescribeOrganizationalUnit id = .ok ⟨id, id⟩ := rfl

theorem failing_walk_a (s : Schedule) (fuel : Nat) (OU : List String) :
    walkOUTree failingProvider s (fuel + 2) (some "ou-a") "o-1" "111111111111" OU =
      .deadlock := by
  have hchildren : paginate (failingProvider.org.ListChildren (some "ou-a")) =
      .ok [⟨some "ou-b"⟩, ⟨some "ou-t"⟩] := by
    simp [failingProvider, failingDirectory, paginate]
  have hlen : (s.order (some "ou-a") [⟨some "ou-b"⟩, ⟨some "ou-t"⟩]).length = 2 :=
    (s.perm _ _).length_eq
  have hmem : ∀ c, c ∈ s.order (some "ou-a") [⟨some "ou-b"⟩, ⟨some "ou-t"⟩] ↔
      c = ⟨some "ou-b"⟩ ∨ c = ⟨some "ou-t"⟩ := by
    intro c
    rw [(s.perm _ _).mem_iff]
    simp
  have ht : ∀ OU', walkOUTree failingProvider s (fuel + 1) (some "ou-t") "o-1"
      "111111111111" OU' = .returned (.ok ([], [], none)) := by
    intro OU'
    rw [walkOUTree_leaf failingProvider s fuel (some "ou-t") _ _ _ []
      (by simp [failingProvider, failingDirectory, paginate])
      (by simp [failingProvider, failingDirectory, paginate])]
    rfl
  rw [walkOUTree]
  simp only [hchildren]
  have hwait := waitChildren_deadlock_of_second_send
    ((s.order (some "ou-a") [⟨some "ou-b"⟩, ⟨some "ou-t"⟩]).map fun child =>
      childGoroutine
        (fun id childOU =>
          walkOUTree failingProvider s (fuel + 1) id "o-1" "111111111111" childOU)
        failingProvider child OU)
    (by
      intro run hrun
      obtain ⟨c, hc, rfl⟩ := List.mem_map.mp hrun
      rcases (hmem c).mp hc with rfl | rfl
      · simp [childGoroutine, failing_describe, failing_walk_b]
      · simp [childGoroutine, failing_describe, ht])
    ⟨_, List.mem_map.mpr ⟨⟨some "ou-b"⟩, (hmem _).mpr (Or.inl rfl), rfl⟩, by
      simp [childGoroutine, failing_describe, failing_walk_b]⟩
  rw [List.length_map, hlen] at hwait
  simp only [List.length_cons, List.length_nil]
  rw [hwait]

theorem failing_walk_root (s : Schedule) (fuel : Nat) (OU : List String) :
    walkOUTree failingProvider s (fuel + 3) (some "r-root") "o-1" "111111111111" OU =
      .deadlock := by
  have hchildren : paginate (failingProvider.org.ListChildren (some "r-root")) =
      .ok [⟨some "ou-a"⟩, ⟨some "ou-s"⟩] := by
    simp [failingProvider, failingDirectory, paginate]
  have hmem : ∀ c, c ∈ s.order (some "r-root") [⟨some "ou-a"⟩, ⟨some "ou-s"⟩] ↔
      c = ⟨some "ou-a"⟩ ∨ c = ⟨some "ou-s"⟩ := by
    intro c
    rw [(s.perm _ _).mem_iff]
    simp
  have hs : ∀ OU', ∃ r, walkOUTree failingProvider s (fuel + 2) (some "ou-s") "o-1"
      "111111111111" OU' = .returned (.ok r) := by
    intro OU'
    exact ⟨_, walkOUTree_leaf failingProvider s (fuel + 1) (some "ou-s") _ _ _ _
      (by simp [failingProvider, failingDirectory, paginate])
      (by simp [failingProvider, failingDirectory, paginate]; rfl)⟩
  rw [walkOUTree]
  simp only [hchildren]
  apply (fun h => by rw [h] :
    waitChildren _ _ = Outcome.deadlock → _)
  apply waitChildren_deadlock_of_blocked
  · intro run hrun
    obtain ⟨c, hc, rfl⟩ := List.mem_map.mp hrun
    rcases (hmem c).mp hc with rfl | rfl
    · right
      simp [childGoroutine, failing_describe, failing_walk_a]
    · left
      obtain ⟨r, hr⟩ := hs (OU ++ [awsToString (some "ou-s")])
      simp [childGoroutine, failing_describe, hr]
  · exact ⟨_, List.mem_map.mpr ⟨⟨some "ou-a"⟩, (hmem _).mpr (Or.inl rfl), rfl⟩, by
      simp [childGoroutine, failing_describe, failing_walk_a]⟩

/-- C1 (fails on the code): in the four-level directory `failingDirectory` the call
`ListChildren` fails three levels deep while every sibling branch succeeds. The
nested `walkOUTree` returns that error to its child goroutine, which sends it, does
not return, and sends again on a channel with one slot per child that nobody reads
before `wg.Wait` is over: under every schedule `wg.Wait` never returns, and
`getOrgTree` and `OrgTree` deadlock instead of returning the error. -/
theorem getOrgTree_deep_listChildren_failure_deadlocks (s : Schedule) (fuel : Nat) :
    walkOUTree failingProvider s (fuel + 1) (some "ou-b") "o-1" "111111111111"
      ["Root", "ou-a", "ou-b"] = Outcome.returned (.error ⟨"ListChildren: throttled"⟩) ∧
    failingProvider.getOrgTree s (fuel + 3) = Outcome.deadlock ∧
    failingProvider.OrgTree s (fuel + 3) = Outcome.deadlock := by
  have hget : failingProvider.getOrgTree s (fuel + 3) = Outcome.deadlock := by
    have hroots : paginate failingProvider.org.ListRoots =
        .ok [⟨some "r-root", some "Root"⟩] := rfl
    have horg : failingProvider.org.DescribeOrganization =
        .ok ⟨some "o-1", some "111111111111"⟩ := rfl
    simp only [AWSOrgTreeProvider.getOrgTree, hroots, horg, rootsLoop, awsToString,
      failing_walk_root]
  refine ⟨failing_walk_b s fuel _, hget, ?_⟩
  have htags : failingProvider.getTagsForAccounts = Outcome.returned (.ok []) := rfl
  simp only [AWSOrgTreeProvider.OrgTree, htags, hget]

/-! ### Which failures are returned -/

/-- A failing `ListRoots` page is returned by `getOrgTree`. -/
theorem getOrgTree_listRoots_error (a : AWSOrgTreeProvider) (s : Schedule) (fuel : Nat)
    (err : GoError) (h : paginate a.org.ListRoots = .error err) :
    a.getOrgTree s fuel = Outcome.returned (.error err) := by
  simp only [AWSOrgTreeProvider.getOrgTree, h]

/-- A failing `DescribeOrganization` is returned by `getOrgTree`. -/
theorem getOrgTree_describeOrganization_error (a : AWSOrgTreeProvider) (s : Schedule)
    (fuel : Nat) (err : GoError) (roots : List types.Root)
    (hroots : paginate a.org.ListRoots = .ok roots)
    (h : a.org.DescribeOrganization = .error err) :
    a.getOrgTree s fuel = Outcome.returned (.error err) := by
  simp only [AWSOrgTreeProvider.getOrgTree, hroots, h]

/-- A failing `ListChildren` page is returned by the call of `walkOUTree` that lists. -/
theorem walkOUTree_listChildren_error (a : AWSOrgTreeProvider) (s : Schedule) (fuel : Nat)
    (parentID : Option String) (orgId managementAccountID : String) (OU : List String)
    (err : GoError) (h : paginate (a.org.ListChildren parentID) = .error err) :
    walkOUTree a s (fuel + 1) parentID orgId managementAccountID OU =
      Outcome.returned (.error err) := by
  simp only [walkOUTree, h]

/-- A failing `ListAccountsForParent` page of a unit without children: the error is
received and returned, and the goroutine that sent it panics. -/
theorem walkOUTree_listAccounts_error (a : AWSOrgTreeProvider) (s : Schedule) (fuel : Nat)
    (parentID : Option String) (orgId managementAccountID : String) (OU : List String)
    (err : GoError) (hc : paginate (a.org.ListChildren parentID) = .ok [])
    (h : paginate (a.org.ListAccountsForParent parentID) = .error err) :
    walkOUTree a s (fuel + 1) parentID orgId managementAccountID OU =
      Outcome.errorThenPanic err := by
  have hs0 : s.order parentID [] = [] := List.perm_nil.mp (s.perm _ _)
  simp only [walkOUTree, hc, hs0, List.map_nil, List.length_nil, waitChildren, List.any_nil,
    Bool.false_eq_true, if_false, List.sum_nil, Nat.lt_irrefl, childWrites, List.flatten_nil,
    List.take_nil, gather, accountsGoroutine, h]

theorem gather_ok :
    ∀ (received : List OrgUnitAccountResponse) (g : Gathered),
      (∀ r ∈ received, r.err = none) → ∃ g', gather received g = .ok g'
  | [], g, _ => ⟨g, rfl⟩
  | r :: rest, g, h => by
      simp only [gather, h r (List.mem_cons_self _ _)]
      exact gather_ok rest _ (fun r' hr' => h r' (List.mem_cons_of_mem _ hr'))

/-- The only error `walkOUTree` ever returns is that of its own `ListChildren`: the
error of a nested call is never handed on. -/
theorem walkOUTree_returned_error (a : AWSOrgTreeProvider) (s : Schedule) (fuel : Nat)
    (parentID : Option String) (orgId managementAccountID : String) (OU : List String)
    (err : GoError)
    (h : walkOUTree a s fuel parentID orgId managementAccountID OU =
      Outcome.returned (.error err)) :
    paginate (a.org.ListChildren parentID) = .error err := by
  cases fuel with
  | zero => simp [walkOUTree] at h
  | succ fuel =>
      simp only [walkOUTree] at h
      split at h
      · simp only [Outcome.returned.injEq, Except.error.injEq] at h
        subst h
        assumption
      · rename_i children hchildren
        exfalso
        split at h
        any_goals cases h
        rename_i orgUnits received hwait
        obtain ⟨hdone, hsum⟩ := waitChildren_returned _ _ _ _ hwait
        obtain ⟨_, hrec⟩ := waitChildren_received _ _ _ _ hwait
        have hlen : ((s.order parentID children).map fun child =>
            childGoroutine
              (fun id childOU => walkOUTree a s fuel id orgId managementAccountID childOU)
              a child OU).length = children.length := by
          rw [List.length_map]
          exact (s.perm parentID children).length_eq
        have hge : ∀ run ∈ (s.order parentID children).map (fun child =>
            childGoroutine
              (fun id childOU => walkOUTree a s fuel id orgId managementAccountID childOU)
              a child OU), 1 ≤ run.sends.length := by
          intro run hrun
          obtain ⟨child, _, rfl⟩ := List.mem_map.mp hrun
          rcases childGoroutine_done _ a child OU (hdone _ hrun) with ⟨_, _, _, _, hs, _⟩ | hs
          · rw [hs]; simp
          · omega
        have hone := all_one_of_sum_le (fun run : ChildRun => run.sends.length) _ hge
          (by rw [hlen]; exact hsum)
        have hnone : ∀ r ∈ received.take children.length, r.err = none := by
          intro r hr
          have hr' := List.mem_of_mem_take hr
          rw [hrec] at hr'
          obtain ⟨sends, hsends, hmem⟩ := List.mem_flatten.mp hr'
          obtain ⟨run, hrun, rfl⟩ := List.mem_map.mp hsends
          obtain ⟨child, _, rfl⟩ := List.mem_map.mp hrun
          rcases childGoroutine_done _ a child OU (hdone _ hrun) with ⟨_, _, _, _, hs, _⟩ | hs
          · rw [hs] at hmem
            simp only [List.mem_singleton] at hmem
            subst hmem
            rfl
          · have := hone _ hrun
            dsimp only at this
            omega
        obtain ⟨g', hg'⟩ := gather_ok _ ⟨[], [], none⟩ hnone
        rw [hg'] at h
        dsimp only at h
        split at h <;> cases h

/-! ### The flattening, for every tree -/

/-- Every path `Accounts()` shows has at most one element. -/
theorem AccountsView_path_short (t : OrgTree) (n : String)
    (v : String × String × Bool × GoMap String × List String)
    (h : t.AccountsView n = some v) : v.2.2.2.2.length ≤ 1 := by
  rw [AccountsView_eq] at h
  cases hfind : (topEntries t.OrgUnits).reverse.find? (fun e => decide (e.1.Name = n)) with
  | none => rw [hfind] at h; cases h
  | some e =>
      rw [hfind] at h
      simp only [Option.map_some', Option.some.injEq] at h
      subst h
      have hmem := List.mem_reverse.mp (List.mem_of_find?_eq_some hfind)
      have : ∀ (l : List (String × OrgUnit)) (e : Account × List String),
          e ∈ topEntries l → e.2.length ≤ 1 := by
        intro l
        induction l with
        | nil => intro e he; simp [topEntries] at he
        | cons x l ih =>
            intro e he
            obtain ⟨k, ou⟩ := x
            cases ou with
            | mk name id t ous accts =>
                simp only [topEntries, topEntriesOU, List.mem_append, List.mem_map] at he
                rcases he with (⟨_, _, rfl⟩ | ⟨_, _, rfl⟩) | he
                · simp
                · simp
                · exact ih e he
      exact this _ e hmem

mutual
theorem walkOU_names :
    ∀ (ou : OrgUnit) (st : Store) (p : Slice) (ancestors : List String),
      (walkOU ou st p).2.map (fun u => (u.Name, u.ID)) =
        (ancestorsOU ou ancestors).map fun d => (d.1, d.2.1)
  | .mk name id _ ous _, st, p, ancestors => by
      simp only [walkOU, ancestorsOU, List.map_cons]
      rw [walkOUs_names ous _ _ (ancestors ++ [name])]
theorem walkOUs_names :
    ∀ (ous : List (String × OrgUnit)) (st : Store) (p : Slice) (ancestors : List String),
      (walkOUs ous st p).2.map (fun u => (u.Name, u.ID)) =
        (ancestorsOUs ous ancestors).map fun d => (d.1, d.2.1)
  | [], _, _, _ => by simp [walkOUs, ancestorsOUs]
  | (_, ou) :: rest, st, p, ancestors => by
      simp only [walkOUs, ancestorsOUs, List.map_append]
      rw [walkOU_names ou st p ancestors, walkOUs_names rest _ p ancestors]
end

/-- The method `OrgUnitsInfo()` returns exactly one descriptor per unit of the tree, at every
depth, with the name and ID of the unit. -/
theorem OrgUnitsView_names (t : OrgTree) :
    t.OrgUnitsView.map (fun d => (d.1, d.2.1)) =
      (ancestorsOUs t.OrgUnits []).map fun d => (d.1, d.2.1) := by
  unfold OrgTree.OrgUnitsView OrgTree.OrgUnitsInfo
  rw [List.map_map]
  exact walkOUs_names t.OrgUnits [] Slice.nil []
end Org
